import Mathlib

/-!
# SevSeg: a shift-register seven-segment display driver

Shallow embedding of `Libraries/SevSeg/SevSeg.cpp`.

* The driver object (`class SevSeg`) is the structure `SevSeg`; a member function that
  assigns fields returns the new structure.
* The platform calls `digitalWrite`, `pinMode` and `delayMicroseconds` are recorded, in
  program order, as a list of `Event`s (the trace of the call).
* Pin levels are obtained by replaying a trace over a map from pin numbers to levels.
* An array read outside `DigitPins[4]` has no defined result: the functions that index
  `DigitPins` return `Option`.
* `toDisplay : Nat → Nat` is the memory behind the `char*` argument: `toDisplay i` is the
  character code stored at `toDisplay[i]`.
* `FRAMEPERIOD`, `COMMON_ANODE` and `characterArray` are declared in `SevSeg.h`;
  `FRAMEPERIOD` and `characterArray` are parameters of the functions that use them.
-/

/-- Events observable on the platform I/O layer. A level is `true` for HIGH and `false`
for LOW. -/
inductive Event where
  | digitalWrite (pin : Nat) (val : Bool)
  | pinMode (pin : Nat) (mode : Nat)
  | delayMicroseconds (us : Int)
  deriving DecidableEq, Repr

/-- The fields of `class SevSeg`. -/
structure SevSeg where
  numberOfDigits : Nat
  DigitPins : List Nat
  SegmentPins : List Nat
  latchPin : Nat
  dataPin : Nat
  clockPin : Nat
  mode : Bool
  DigitOn : Bool
  DigitOff : Bool
  SegOn : Bool
  SegOff : Bool
  brightnessDelay : Int
  deriving DecidableEq, Repr

namespace SevSeg

/-- Arduino `LOW`. -/
def LOW : Bool := false

/-- Arduino `HIGH`. -/
def HIGH : Bool := true

/-- Arduino `OUTPUT` (pin direction). -/
def OUTPUT : Nat := 1

/-- Modelled from the spec: the macro `COMMON_ANODE` of `SevSeg.h`, one of the two values of
the polarity mode; the comments of `SevSeg.cpp` fix it as 1 (common cathode is 0). -/
def COMMON_ANODE : Bool := true

/-- Modelled from the spec: the macro `COMMON_CATHODE` of `SevSeg.h`, the other value of the
polarity mode (0 in the comments of `SevSeg.cpp`). -/
def COMMON_CATHODE : Bool := false

/-- The level `digitalWrite` drives for an integer argument: LOW for 0, HIGH otherwise. -/
def levelOf (val : Nat) : Bool := val != 0

/-- Iterations of the loop of `shiftOut` for the bit positions `k-1, k-2, ..., 0`
(`shiftOutLoop s b 8` is the whole `for (int i=7; i>=0; i--)` loop). -/
def shiftOutLoop (s : SevSeg) (myDataOut : Nat) : Nat → List Event
  | 0 => []
  | i + 1 =>
    let pinState : Nat := if myDataOut &&& (1 <<< i) ≠ 0 then 1 else 0
    [Event.digitalWrite s.clockPin (levelOf 0),
     Event.digitalWrite s.dataPin (levelOf pinState),
     Event.digitalWrite s.clockPin (levelOf 1),
     Event.digitalWrite s.dataPin (levelOf 0)] ++ shiftOutLoop s myDataOut i

/-- `SevSeg::shiftOut`: the eight loop iterations, then `digitalWrite(clockPin, 0)`. -/
def shiftOut (s : SevSeg) (myDataOut : Nat) : List Event :=
  shiftOutLoop s myDataOut 8 ++ [Event.digitalWrite s.clockPin (levelOf 0)]

/-- `SevSeg::shiftWrite`. -/
def shiftWrite (s : SevSeg) (data : Nat) : List Event :=
  [Event.digitalWrite s.latchPin LOW] ++ shiftOut s data ++ [Event.digitalWrite s.latchPin HIGH]

/-! ## Replaying a trace -/

/-- Effect of one event on the pin levels. -/
def step (st : Nat → Bool) : Event → (Nat → Bool)
  | Event.digitalWrite pin val => Function.update st pin val
  | _ => st

/-- Pin levels after a trace. -/
def run (st : Nat → Bool) (tr : List Event) : Nat → Bool :=
  tr.foldl step st

/-- The level of the `data` line sampled at every rising edge of the `clock` line: an event
that writes HIGH to `clock` while `clock` is LOW. -/
def risingEdgeSamples (clock data : Nat) : (Nat → Bool) → List Event → List Bool
  | _, [] => []
  | st, e :: es =>
    (if e = Event.digitalWrite clock true ∧ st clock = false then [st data] else [])
      ++ risingEdgeSamples clock data (step st e) es

/-- The number read from a list of bits, most significant bit first. -/
def bitsToNat (bits : List Bool) : Nat :=
  bits.foldl (fun acc b => 2 * acc + b.toNat) 0

/-- Arduino core `map(x, in_min, in_max, out_min, out_max)`:
`(x - in_min) * (out_max - out_min) / (in_max - in_min) + out_min`, with the truncating
division of C, in exact integer arithmetic. -/
def map (x in_min in_max out_min out_max : Int) : Int :=
  Int.tdiv ((x - in_min) * (out_max - out_min)) (in_max - in_min) + out_min

/-- `SevSeg::SetBrightness`; `FRAMEPERIOD` is the macro of `SevSeg.h`, `percentBright` a
byte. -/
def SetBrightness (FRAMEPERIOD : Int) (s : SevSeg) (percentBright : Nat) : SevSeg :=
  let percentBright := if percentBright > 100 then 100 else percentBright
  { s with brightnessDelay := map percentBright 0 100 0 FRAMEPERIOD }

/-- The loop `for (byte digit = 0 ; digit < numberOfDigits ; digit++)` of `Begin`, with
`k` iterations left and the loop variable at `digit`. -/
def beginLoop (s : SevSeg) : Nat → Nat → Option (List Event)
  | 0, _ => some []
  | k + 1, digit =>
    (s.DigitPins[digit]?).bind fun pin =>
      (beginLoop s k (digit + 1)).map fun rest =>
        [Event.digitalWrite pin s.DigitOff, Event.pinMode pin OUTPUT] ++ rest

/-- `SevSeg::Begin`, called on the driver `s`: the driver after the call and the trace. -/
def Begin (s : SevSeg) (mode_in : Bool)
    (numOfDigits digit1 digit2 digit3 digit4 latch data clock : Nat) :
    Option (SevSeg × List Event) :=
  let s1 : SevSeg :=
    { s with
      numberOfDigits := numOfDigits
      DigitPins := [digit1, digit2, digit3, digit4]
      SegmentPins := [0, 1, 2, 3, 4, 5, 6, 7]
      latchPin := latch
      dataPin := data
      clockPin := clock
      mode := mode_in }
  let s2 : SevSeg :=
    if s1.mode = COMMON_ANODE then
      { s1 with DigitOn := HIGH, DigitOff := LOW, SegOn := LOW, SegOff := HIGH }
    else
      { s1 with DigitOn := LOW, DigitOff := HIGH, SegOn := HIGH, SegOff := LOW }
  (beginLoop s2 s2.numberOfDigits 0).map fun digits =>
    (s2,
      digits
        ++ [Event.pinMode s2.latchPin OUTPUT,
            Event.pinMode s2.dataPin OUTPUT,
            Event.pinMode s2.clockPin OUTPUT,
            Event.digitalWrite s2.dataPin LOW,
            Event.digitalWrite s2.clockPin LOW]
        ++ (if s2.SegOff then shiftWrite s2 0x00 else shiftWrite s2 0xFF))

/-- The byte passed for the expression `~characterToDisplay`: the complement of an 8-bit
character code, as a byte. -/
def complementByte (c : Nat) : Nat := 255 - c % 256

set_option linter.unusedVariables false in
/-- The body of the loop of `DisplayString` for one value of `digit`. The table lookup
`character` is computed and not used, as in the source. -/
def displayDigit (FRAMEPERIOD : Int) (characterArray : Nat → Nat) (s : SevSeg)
    (toDisplay : Nat → Nat) (digit : Nat) : Option (List Event) :=
  (s.DigitPins[digit]?).map fun pin =>
    let characterToDisplay := toDisplay digit
    let character := characterArray characterToDisplay
    [Event.digitalWrite pin s.DigitOn]
      ++ shiftWrite s (complementByte characterToDisplay)
      ++ [Event.delayMicroseconds (s.brightnessDelay + 1)]
      ++ shiftWrite s 0xFF
      ++ [Event.digitalWrite pin s.DigitOff]
      ++ [Event.delayMicroseconds (FRAMEPERIOD - s.brightnessDelay + 1)]

/-- The loop `for (byte digit = 0 ; digit < numberOfDigits; digit++)` of `DisplayString`,
with `k` iterations left and the loop variable at `digit`. -/
def displayLoop (FRAMEPERIOD : Int) (characterArray : Nat → Nat) (s : SevSeg)
    (toDisplay : Nat → Nat) : Nat → Nat → Option (List Event)
  | 0, _ => some []
  | k + 1, digit =>
    (displayDigit FRAMEPERIOD characterArray s toDisplay digit).bind fun cycle =>
      (displayLoop FRAMEPERIOD characterArray s toDisplay k (digit + 1)).map fun rest =>
        cycle ++ rest

set_option linter.unusedVariables false in
/-- `SevSeg::DisplayString`: the trace of one refresh pass. -/
def DisplayString (FRAMEPERIOD : Int) (characterArray : Nat → Nat) (s : SevSeg)
    (toDisplay : Nat → Nat) (DecAposColon : Nat) : Option (List Event) :=
  displayLoop FRAMEPERIOD characterArray s toDisplay s.numberOfDigits 0

/-- The memory behind a string literal: its characters, then zero bytes. -/
def cstr (text : List Nat) : Nat → Nat := fun i => text.getD i 0

/-- A driver wired as in the end-to-end scenario: common cathode, four digits on pins
2, 3, 4, 5, latch on 8, data on 9, clock on 10. -/
def wired : SevSeg :=
  { numberOfDigits := 4
    DigitPins := [2, 3, 4, 5]
    SegmentPins := [0, 1, 2, 3, 4, 5, 6, 7]
    latchPin := 8
    dataPin := 9
    clockPin := 10
    mode := COMMON_CATHODE
    DigitOn := LOW
    DigitOff := HIGH
    SegOn := HIGH
    SegOff := LOW
    brightnessDelay := 0 }

/-- All pins low. -/
def allLow : Nat → Bool := fun _ => false

/-- `P st e post` holds at every event `e` of the trace, `st` being the pin levels just
before the event and `post` the events after it. -/
def AtEachEvent (P : (Nat → Bool) → Event → List Event → Prop) :
    (Nat → Bool) → List Event → Prop
  | _, [] => True
  | st, e :: es => P st e es ∧ AtEachEvent P (step st e) es

/-- `Q` holds of the pin levels at every point of the trace: before the first event and
after each event. -/
def AtEachPoint (Q : (Nat → Bool) → Prop) : (Nat → Bool) → List Event → Prop
  | st, [] => Q st
  | st, e :: es => Q st ∧ AtEachPoint Q (step st e) es

/-- The pin an event acts on, if any. -/
def pinOf : Event → Option Nat
  | Event.digitalWrite pin _ => some pin
  | Event.pinMode pin _ => some pin
  | Event.delayMicroseconds _ => none

/-- The driver `Begin` leaves: the fields it assigns, the others as in `s`. -/
def configured (s : SevSeg) (mode_in : Bool)
    (numOfDigits digit1 digit2 digit3 digit4 latch data clock : Nat) : SevSeg :=
  { s with
    numberOfDigits := numOfDigits
    DigitPins := [digit1, digit2, digit3, digit4]
    SegmentPins := [0, 1, 2, 3, 4, 5, 6, 7]
    latchPin := latch
    dataPin := data
    clockPin := clock
    mode := mode_in
    DigitOn := mode_in
    DigitOff := !mode_in
    SegOn := !mode_in
    SegOff := mode_in }

/-- The events of the digit loop of `Begin` on a driver with the fields of `s1`. -/
def beginDigits (s1 : SevSeg) : List Event :=
  (s1.DigitPins.take s1.numberOfDigits).flatMap fun p =>
    [Event.digitalWrite p s1.DigitOff, Event.pinMode p OUTPUT]

/-- The events of `Begin` after the digit loop. -/
def beginSerial (s1 : SevSeg) : List Event :=
  [Event.pinMode s1.latchPin OUTPUT, Event.pinMode s1.dataPin OUTPUT,
    Event.pinMode s1.clockPin OUTPUT, Event.digitalWrite s1.dataPin LOW,
    Event.digitalWrite s1.clockPin LOW]
    ++ shiftWrite s1 (if s1.SegOff then 0x00 else 0xFF)

/-- The trace of `Begin` on a driver with the fields of `s1`, the digit loop unrolled. -/
def beginTrace (s1 : SevSeg) : List Event :=
  beginDigits s1 ++ beginSerial s1

/-- The events of one iteration of the loop of `DisplayString`, for the digit pin `pin` and
the character code `c`. -/
def window (FRAMEPERIOD : Int) (s : SevSeg) (pin c : Nat) : List Event :=
  [Event.digitalWrite pin s.DigitOn]
    ++ shiftWrite s (complementByte c)
    ++ [Event.delayMicroseconds (s.brightnessDelay + 1)]
    ++ shiftWrite s 0xFF
    ++ [Event.digitalWrite pin s.DigitOff]
    ++ [Event.delayMicroseconds (FRAMEPERIOD - s.brightnessDelay + 1)]

/-- The events of the iterations for the digit pins `pins`, the first of them showing the
character at index `digit`. -/
def windows (FRAMEPERIOD : Int) (s : SevSeg) (toDisplay : Nat → Nat) :
    List Nat → Nat → List Event
  | [], _ => []
  | pin :: pins, digit =>
    window FRAMEPERIOD s pin (toDisplay digit)
      ++ windows FRAMEPERIOD s toDisplay pins (digit + 1)

/-- The durations passed to `delayMicroseconds`, in order. -/
def delays : List Event → List Int
  | [] => []
  | Event.delayMicroseconds us :: es => us :: delays es
  | _ :: es => delays es

/-- Consecutive durations, two by two. -/
def pairUp : List Int → List (Int × Int)
  | a :: b :: rest => (a, b) :: pairUp rest
  | _ => []

/-- The holds of a trace of `DisplayString`, one pair per digit: the hold while the digit is
lit and the hold after it is switched off. -/
def holdTimes (tr : List Event) : List (Int × Int) :=
  pairUp (delays tr)

/-- Modelled from the spec: the table `characterArray` of `SevSeg.h`, which maps a character
code to the segments to light. The header is absent; this sample has the usual patterns
of the digits (bit 0 is segment a, bit 6 is segment g) and is blank elsewhere. -/
def glyphs (c : Nat) : Nat :=
  [0x3F, 0x06, 0x5B, 0x4F, 0x66, 0x6D, 0x7D, 0x07, 0x7F, 0x6F].getD (c - 0x30) 0

/-- The text of the end-to-end scenario, the characters 3, 1, 4, 1. -/
def text3141 : Nat → Nat := cstr [0x33, 0x31, 0x34, 0x31]

/-- The positions, among the digits in use, whose select pin is at the digit-on level. -/
def litDigits (s : SevSeg) (st : Nat → Bool) : List Nat :=
  (List.range s.numberOfDigits).filter fun i =>
    (s.DigitPins[i]?).any fun pin => st pin == s.DigitOn

/-- A serial-in shift register with an output latch on the serial pins of `s`, observing a
trace: a rising edge of the clock line shifts the level of the data line into the 8-bit
register `reg`, a rising edge of the latch line moves `reg` to the outputs. The result
lists the bytes moved to the outputs, each with the digit positions lit at that moment. -/
def latchLog (s : SevSeg) : (Nat → Bool) → Nat → List Event → List (Nat × List Nat)
  | _, _, [] => []
  | st, reg, e :: es =>
    (if e = Event.digitalWrite s.latchPin true ∧ st s.latchPin = false then
        [(reg, litDigits s st)]
      else [])
      ++ latchLog s (step st e)
          (if e = Event.digitalWrite s.clockPin true ∧ st s.clockPin = false then
            (2 * reg + (st s.dataPin).toNat) % 256
          else reg) es

/-- The events of `shiftOut` for one bit. -/
def clockIn (s : SevSeg) (bit : Bool) : List Event :=
  [Event.digitalWrite s.clockPin false, Event.digitalWrite s.dataPin bit,
    Event.digitalWrite s.clockPin true, Event.digitalWrite s.dataPin false]

/-- The bytes a trace moves to the outputs of the shift register. -/
def latchedBytes (s : SevSeg) (st : Nat → Bool) (reg : Nat) (tr : List Event) : List Nat :=
  (latchLog s st reg tr).map Prod.fst

/-- The end-to-end scenario: `Begin` with common cathode, 4 digits on pins 2, 3, 4, 5, latch
8, data 9, clock 10; brightness 50 percent of a frame of 2000; `DisplayString` of the text
3141, with the table `characterArray`. The result is the log of the shift register during
`DisplayString`. -/
def scenario (characterArray : Nat → Nat) : Option (List (Nat × List Nat)) :=
  (Begin wired COMMON_CATHODE 4 2 3 4 5 8 9 10).bind fun r =>
    (DisplayString 2000 characterArray (SetBrightness 2000 r.1 50) text3141 0).map fun tr =>
      latchLog (SetBrightness 2000 r.1 50) (run allLow r.2) 0 tr

/-- The writes of a trace to the pins `pins`, in order. -/
def digitWrites (pins : List Nat) (tr : List Event) : List Event :=
  tr.filter fun e =>
    match e with
    | Event.digitalWrite pin _ => decide (pin ∈ pins)
    | _ => false

/-- Pin levels with the pins 0 to 7 high and the others low: on the wired driver, the four
digit pins at the digit-off level and the serial pins low. -/
def digitsHigh : Nat → Bool := fun pin => decide (pin < 8)

/-- At most the pin `lit` of `pins` is away from the level `off`. -/
def OnlyLit (pins : List Nat) (off : Bool) (st : Nat → Bool) : Prop :=
  ∃ lit, ∀ q ∈ pins, q ≠ lit → st q = off

/-- The loop of `flipByte` with `k` iterations left. The accumulator `r` is a `char`: it is
kept as its 8-bit pattern, truncated to 8 bits when the shifted value is stored back. -/
def flipByteLoop : Nat → Nat → Nat → Nat
  | 0, r, _ => r
  | k + 1, r, c =>
    let r := (r <<< 1) % 256
    let r := r ||| (c &&& 1)
    let c := c >>> 1
    flipByteLoop k r c

/-- The function `flipByte`: eight iterations from `r = 0`, the result returned as a byte. -/
def flipByte (c : Nat) : Nat :=
  flipByteLoop 8 0 c % 256

/-- A call of `SevSeg::DisplayString` in state-passing form: the function assigns no field of
the driver, so the driver after the call is the driver before it. -/
def DisplayStringCall (FRAMEPERIOD : Int) (characterArray : Nat → Nat) (s : SevSeg)
    (toDisplay : Nat → Nat) (DecAposColon : Nat) : Option (SevSeg × List Event) :=
  (DisplayString FRAMEPERIOD characterArray s toDisplay DecAposColon).map fun tr => (s, tr)

/-- Two consecutive calls of `DisplayString` with the same arguments: the driver left by the
first call is the driver of the second, and the traces follow each other. -/
def DisplayStringTwice (FRAMEPERIOD : Int) (characterArray : Nat → Nat) (s : SevSeg)
    (toDisplay : Nat → Nat) (DecAposColon : Nat) : Option (SevSeg × List Event) :=
  (DisplayStringCall FRAMEPERIOD characterArray s toDisplay DecAposColon).bind fun r1 =>
    (DisplayStringCall FRAMEPERIOD characterArray r1.1 toDisplay DecAposColon).map fun r2 =>
      (r2.1, r1.2 ++ r2.2)

/-- A call of a member function after `Begin`. -/
inductive Call where
  | shiftOut (myDataOut : Nat)
  | shiftWrite (data : Nat)
  | SetBrightness (percentBright : Nat)
  | DisplayString (toDisplay : Nat → Nat) (DecAposColon : Nat)

/-- The driver after a call and the trace of the call. -/
def call (FRAMEPERIOD : Int) (characterArray : Nat → Nat) (s : SevSeg) :
    Call → Option (SevSeg × List Event)
  | Call.shiftOut myDataOut => some (s, shiftOut s myDataOut)
  | Call.shiftWrite data => some (s, shiftWrite s data)
  | Call.SetBrightness percentBright => some (SetBrightness FRAMEPERIOD s percentBright, [])
  | Call.DisplayString toDisplay DecAposColon =>
    DisplayStringCall FRAMEPERIOD characterArray s toDisplay DecAposColon

/-- A sequence of calls from the driver `s` and the pin levels `st`: the driver and the pin
levels after the last call. -/
def session (FRAMEPERIOD : Int) (characterArray : Nat → Nat) :
    SevSeg → (Nat → Bool) → List Call → Option (SevSeg × (Nat → Bool))
  | s, st, [] => some (s, st)
  | s, st, c :: cs =>
    (call FRAMEPERIOD characterArray s c).bind fun r =>
      session FRAMEPERIOD characterArray r.1 (run st r.2) cs

/-- The serial lines at rest: clock low, data low, latch high. -/
def IdleLines (s : SevSeg) (st : Nat → Bool) : Prop :=
  st s.clockPin = false ∧ st s.dataPin = false ∧ st s.latchPin = true

/-- A driver with at most four digits whose digit pins in use are distinct from the latch,
data and clock pins, themselves pairwise distinct. -/
def WellWired (s : SevSeg) : Prop :=
  s.numberOfDigits ≤ 4 ∧ s.DigitPins.length = 4
    ∧ (∀ p ∈ s.DigitPins.take s.numberOfDigits,
        p ≠ s.latchPin ∧ p ≠ s.dataPin ∧ p ≠ s.clockPin)
    ∧ s.latchPin ≠ s.dataPin ∧ s.latchPin ≠ s.clockPin ∧ s.dataPin ≠ s.clockPin

/-- The entry of a write to a digit pin in use, with the byte `out` on the outputs of the
shift register; other events have no entry. -/
def digitWriteEntry (s : SevSeg) (out : Option Nat) : Event → List (Nat × Bool × Option Nat)
  | Event.digitalWrite pin val =>
    if pin ∈ s.DigitPins.take s.numberOfDigits then [(pin, val, out)] else []
  | Event.pinMode _ _ => []
  | Event.delayMicroseconds _ => []

/-- The writes of the trace `tr` to the digit pins in use, each with the byte on the outputs
of the shift register at that moment: the last byte moved there since the start of the
events `pre` that came before `tr`, if there is one. -/
def digitWriteLog (s : SevSeg) (st : Nat → Bool) (reg : Nat) :
    List Event → List Event → List (Nat × Bool × Option Nat)
  | _, [] => []
  | pre, e :: es =>
    digitWriteEntry s (latchedBytes s st reg pre).getLast? e
      ++ digitWriteLog s st reg (pre ++ [e]) es

/-! ## Bit tests -/

theorem and_shiftLeft_ne_zero_iff (b i : Nat) :
    (b &&& (1 <<< i) ≠ 0) ↔ b.testBit i = true := by
  rw [Nat.one_shiftLeft]
  constructor
  · intro h
    by_contra hb
    apply h
    apply Nat.eq_of_testBit_eq
    intro j
    simp only [Nat.testBit_and, Nat.testBit_two_pow, Nat.zero_testBit]
    by_cases hij : i = j
    · subst hij; simp [hb]
    · simp [hij]
  · intro hb h
    have := congrArg (fun x => x.testBit i) h
    simp [Nat.testBit_and, Nat.testBit_two_pow, hb] at this

theorem levelOf_pinState (b i : Nat) :
    levelOf (if b &&& (1 <<< i) ≠ 0 then 1 else 0) = b.testBit i := by
  by_cases h : b.testBit i = true
  · rw [if_pos ((and_shiftLeft_ne_zero_iff b i).2 h), h]; rfl
  · rw [if_neg (fun h2 => h ((and_shiftLeft_ne_zero_iff b i).1 h2))]
    simp at h; rw [h]; rfl

/-- The trace of `shiftOut`, bit by bit. -/
theorem shiftOut_eq (s : SevSeg) (b : Nat) :
    shiftOut s b =
      ([7, 6, 5, 4, 3, 2, 1, 0].flatMap fun i =>
        [Event.digitalWrite s.clockPin false, Event.digitalWrite s.dataPin (b.testBit i),
         Event.digitalWrite s.clockPin true, Event.digitalWrite s.dataPin false])
      ++ [Event.digitalWrite s.clockPin false] := by
  simp only [shiftOut, shiftOutLoop, levelOf_pinState]
  simp [levelOf]

theorem bitsToNat_testBit (b : Nat) (hb : b < 256) :
    bitsToNat ((List.range 8).map fun k => b.testBit (7 - k)) = b := by
  interval_cases b <;> rfl

/-! ## Traces -/

theorem run_cons (st : Nat → Bool) (e : Event) (tr : List Event) :
    run st (e :: tr) = run (step st e) tr := rfl

theorem run_append (st : Nat → Bool) (a b : List Event) :
    run st (a ++ b) = run (run st a) b := by
  simp [run, List.foldl_append]

theorem step_write_ne (st : Nat → Bool) (pin q : Nat) (val : Bool) (h : q ≠ pin) :
    step st (Event.digitalWrite pin val) q = st q := by
  simp [step, Function.update, h]

theorem step_write_eq (st : Nat → Bool) (pin : Nat) (val : Bool) :
    step st (Event.digitalWrite pin val) pin = val := by
  simp [step, Function.update]

theorem atEachEvent_iff (P : (Nat → Bool) → Event → List Event → Prop) (st : Nat → Bool)
    (tr : List Event) :
    AtEachEvent P st tr ↔ ∀ pre e post, tr = pre ++ e :: post → P (run st pre) e post := by
  induction tr generalizing st with
  | nil =>
    constructor
    · intro _ pre e post h
      simp at h
    · intro _
      trivial
  | cons a tr ih =>
    constructor
    · rintro ⟨ha, htr⟩ pre e post h
      cases pre with
      | nil =>
        simp at h
        rw [← h.1, ← h.2]
        exact ha
      | cons c pre =>
        simp at h
        rw [run_cons, ← h.1]
        exact (ih (step st a)).1 htr pre e post h.2
    · intro h
      refine ⟨h [] a tr rfl, (ih (step st a)).2 ?_⟩
      intro pre e post hd
      have := h (a :: pre) e post (by rw [hd]; rfl)
      rwa [run_cons] at this

theorem atEachPoint_iff (Q : (Nat → Bool) → Prop) (st : Nat → Bool) (tr : List Event) :
    AtEachPoint Q st tr ↔ ∀ pre post, tr = pre ++ post → Q (run st pre) := by
  induction tr generalizing st with
  | nil =>
    constructor
    · intro h pre post hd
      have hp : pre = [] := by
        cases pre with
        | nil => rfl
        | cons c pre => simp at hd
      rw [hp]
      exact h
    · intro h
      exact h [] [] rfl
  | cons a tr ih =>
    constructor
    · rintro ⟨ha, htr⟩ pre post hd
      cases pre with
      | nil => exact ha
      | cons c pre =>
        simp at hd
        rw [run_cons, ← hd.1]
        exact (ih (step st a)).1 htr pre post hd.2
    · intro h
      refine ⟨h [] (a :: tr) rfl, (ih (step st a)).2 ?_⟩
      intro pre post hd
      have := h (a :: pre) post (by rw [hd]; rfl)
      rwa [run_cons] at this

theorem atEachPoint_append (Q : (Nat → Bool) → Prop) (st : Nat → Bool) (a b : List Event) :
    AtEachPoint Q st a → AtEachPoint Q (run st a) b → AtEachPoint Q st (a ++ b) := by
  induction a generalizing st with
  | nil =>
    intro _ hb
    exact hb
  | cons e a ih =>
    intro ha hb
    exact ⟨ha.1, ih (step st e) ha.2 hb⟩

/-- A trace that touches none of the pins `pins` keeps their levels, and keeps at every
point a property that depends on their levels only. -/
theorem atEachPoint_of_untouched (pins : List Nat) (Q : (Nat → Bool) → Prop)
    (hQ : ∀ st1 st2, (∀ q ∈ pins, st1 q = st2 q) → Q st1 → Q st2) (tr : List Event)
    (htr : ∀ e ∈ tr, ∀ q ∈ pins, pinOf e ≠ some q) (st : Nat → Bool) (hst : Q st) :
    AtEachPoint Q st tr ∧ ∀ q ∈ pins, run st tr q = st q := by
  induction tr generalizing st with
  | nil => exact ⟨hst, fun _ _ => rfl⟩
  | cons e tr ih =>
    have hstep : ∀ q ∈ pins, step st e q = st q := by
      intro q hq
      have hne := htr e (List.mem_cons_self _ _) q hq
      cases e with
      | digitalWrite pin val =>
        have hpq : q ≠ pin := fun h => hne (by rw [h]; rfl)
        simp [step, Function.update, hpq]
      | pinMode pin m => rfl
      | delayMicroseconds us => rfl
    have hQ1 : Q (step st e) := hQ st (step st e) (fun q hq => (hstep q hq).symm) hst
    obtain ⟨h1, h2⟩ := ih (fun e1 he1 => htr e1 (List.mem_cons_of_mem _ he1)) (step st e) hQ1
    refine ⟨⟨hst, h1⟩, ?_⟩
    intro q hq
    rw [run_cons, h2 q hq, hstep q hq]

theorem mem_post_of_split {A B pre post : List Event} {e : Event}
    (h : A ++ B = pre ++ e :: post) (he : e ∉ A) : ∀ x ∈ post, x ∈ B := by
  intro x hx
  rcases List.append_eq_append_iff.1 h with ⟨a, _, hB⟩ | ⟨c, hA, hc⟩
  · rw [hB]
    exact List.mem_append_right _ (List.mem_cons_of_mem _ hx)
  · cases c with
    | nil =>
      simp only [List.nil_append] at hc
      rw [← hc]
      exact List.mem_cons_of_mem _ hx
    | cons c0 c =>
      simp only [List.cons_append, List.cons.injEq] at hc
      exfalso
      apply he
      rw [hA, hc.1]
      simp

theorem pinOf_mem_shiftOutLoop (s : SevSeg) (b k : Nat) :
    ∀ e ∈ shiftOutLoop s b k, pinOf e = some s.dataPin ∨ pinOf e = some s.clockPin := by
  induction k with
  | zero => simp [shiftOutLoop]
  | succ k ih =>
    intro e he
    simp only [shiftOutLoop, List.mem_append, List.mem_cons, List.mem_singleton,
      List.not_mem_nil, or_false] at he
    rcases he with (rfl | rfl | rfl | rfl) | he
    · exact Or.inr rfl
    · exact Or.inl rfl
    · exact Or.inr rfl
    · exact Or.inl rfl
    · exact ih e he

theorem pinOf_mem_shiftWrite (s : SevSeg) (b : Nat) :
    ∀ e ∈ shiftWrite s b,
      pinOf e = some s.latchPin ∨ pinOf e = some s.dataPin ∨ pinOf e = some s.clockPin := by
  intro e he
  simp only [shiftWrite, shiftOut, List.mem_append, List.mem_cons, List.mem_singleton,
    List.not_mem_nil, or_false] at he
  rcases he with (rfl | he | rfl) | rfl
  · exact Or.inl rfl
  · exact Or.inr (pinOf_mem_shiftOutLoop s b 8 e he)
  · exact Or.inr (Or.inr rfl)
  · exact Or.inl rfl

/-! ## shiftOut and shiftWrite -/

/-- C1: for every byte `b`, with data and clock on distinct pins and from any initial pin
levels, the trace of `shiftOut b` has exactly 8 rising edges of the clock line, the data
level at the `k`-th rising edge is bit `7 - k` of `b`, and the 8 sampled levels read most
significant bit first give back `b`. -/
theorem shiftOut_msb_first (s : SevSeg) (b : Nat) (st : Nat → Bool)
    (hb : b < 256) (hdc : s.dataPin ≠ s.clockPin) :
    (risingEdgeSamples s.clockPin s.dataPin st (shiftOut s b)).length = 8
      ∧ (∀ k, k < 8 →
          (risingEdgeSamples s.clockPin s.dataPin st (shiftOut s b)).getD k false
            = b.testBit (7 - k))
      ∧ bitsToNat (risingEdgeSamples s.clockPin s.dataPin st (shiftOut s b)) = b := by
  have hs : risingEdgeSamples s.clockPin s.dataPin st (shiftOut s b)
      = (List.range 8).map (fun k => b.testBit (7 - k)) := by
    rw [shiftOut_eq]
    simp [risingEdgeSamples, step, Function.update, hdc, hdc.symm, List.range,
      List.range.loop]
  rw [hs]
  refine ⟨by simp, ?_, bitsToNat_testBit b hb⟩
  intro k hk
  interval_cases k <;> rfl

/-- Witness of C1: the byte 0xA5 on the wired driver. -/
theorem shiftOut_msb_first_witness :
    (0xA5 < 256 ∧ wired.dataPin ≠ wired.clockPin) ∧
    (risingEdgeSamples wired.clockPin wired.dataPin allLow (shiftOut wired 0xA5)).length = 8
      ∧ (∀ k, k < 8 →
          (risingEdgeSamples wired.clockPin wired.dataPin allLow (shiftOut wired 0xA5)).getD
              k false
            = Nat.testBit 0xA5 (7 - k))
      ∧ bitsToNat (risingEdgeSamples wired.clockPin wired.dataPin allLow (shiftOut wired 0xA5))
          = 0xA5 :=
  ⟨by decide, shiftOut_msb_first wired 0xA5 allLow (by decide) (by decide)⟩

/-- C3: for every byte `b`, the trace of `shiftWrite b` is the write of LOW to the latch
pin, then the trace of `shiftOut b`, then the write of HIGH to the latch pin; with the latch
on a pin distinct from data and clock, the latch line is low at every write to the data or
clock pin, the write of HIGH to the latch is the last event of the trace (after the last
clock write), and the latch line is high afterwards. -/
theorem shiftWrite_brackets_shiftOut (s : SevSeg) (b : Nat) (st : Nat → Bool)
    (hld : s.latchPin ≠ s.dataPin) (hlc : s.latchPin ≠ s.clockPin) :
    shiftWrite s b
        = [Event.digitalWrite s.latchPin LOW] ++ shiftOut s b
            ++ [Event.digitalWrite s.latchPin HIGH]
      ∧ (∀ pre pin val post, shiftWrite s b = pre ++ Event.digitalWrite pin val :: post →
          (pin = s.dataPin ∨ pin = s.clockPin) → run st pre s.latchPin = LOW)
      ∧ (∀ pre post, shiftWrite s b = pre ++ Event.digitalWrite s.latchPin HIGH :: post →
          post = [])
      ∧ run st (shiftWrite s b) s.latchPin = HIGH := by
  refine ⟨rfl, ?_, ?_, ?_⟩
  · have h : AtEachEvent (fun st e _ => ∀ pin val, e = Event.digitalWrite pin val →
        (pin = s.dataPin ∨ pin = s.clockPin) → st s.latchPin = LOW) st (shiftWrite s b) := by
      simp only [shiftWrite, shiftOut_eq]
      simp [AtEachEvent, step, Function.update, LOW, HIGH, hld, hlc, hld.symm, hlc.symm]
    intro pre pin val post hd hp
    exact (atEachEvent_iff _ st _).1 h pre _ post hd pin val rfl hp
  · have h : AtEachEvent (fun _ e post => e = Event.digitalWrite s.latchPin HIGH → post = [])
        st (shiftWrite s b) := by
      simp only [shiftWrite, shiftOut_eq]
      simp [AtEachEvent, LOW, HIGH, hld, hlc, hld.symm, hlc.symm]
    intro pre post hd
    exact (atEachEvent_iff _ st _).1 h pre _ post hd rfl
  · simp only [shiftWrite, shiftOut_eq]
    simp [run, step, Function.update, HIGH]

/-- Witness of C3: the byte 0x3C on the wired driver. -/
theorem shiftWrite_brackets_shiftOut_witness :
    (wired.latchPin ≠ wired.dataPin ∧ wired.latchPin ≠ wired.clockPin)
      ∧ (shiftWrite wired 0x3C
          = [Event.digitalWrite wired.latchPin LOW] ++ shiftOut wired 0x3C
              ++ [Event.digitalWrite wired.latchPin HIGH]
        ∧ (∀ pre pin val post,
            shiftWrite wired 0x3C = pre ++ Event.digitalWrite pin val :: post →
            (pin = wired.dataPin ∨ pin = wired.clockPin) → run allLow pre wired.latchPin = LOW)
        ∧ (∀ pre post,
            shiftWrite wired 0x3C = pre ++ Event.digitalWrite wired.latchPin HIGH :: post →
            post = [])
        ∧ run allLow (shiftWrite wired 0x3C) wired.latchPin = HIGH) :=
  ⟨by decide, shiftWrite_brackets_shiftOut wired 0x3C allLow (by decide) (by decide)⟩

/-! ## The shift register -/

theorem latchedBytes_nil (s : SevSeg) (st : Nat → Bool) (reg : Nat) :
    latchedBytes s st reg [] = [] := rfl

theorem latchedBytes_cons (s : SevSeg) (st : Nat → Bool) (reg : Nat) (e : Event)
    (es : List Event) :
    latchedBytes s st reg (e :: es)
      = (if e = Event.digitalWrite s.latchPin true ∧ st s.latchPin = false then [reg] else [])
        ++ latchedBytes s (step st e)
            (if e = Event.digitalWrite s.clockPin true ∧ st s.clockPin = false then
              (2 * reg + (st s.dataPin).toNat) % 256
            else reg) es := by
  simp only [latchedBytes, latchLog, List.map_append]
  split <;> rfl

/-- Events that write HIGH neither to the latch nor to the clock leave the shift register
as it is. -/
theorem latchedBytes_append_of_quiet (s : SevSeg) (a b : List Event)
    (ha : ∀ e ∈ a, e ≠ Event.digitalWrite s.latchPin true
      ∧ e ≠ Event.digitalWrite s.clockPin true)
    (st : Nat → Bool) (reg : Nat) :
    latchedBytes s st reg (a ++ b) = latchedBytes s (run st a) reg b := by
  induction a generalizing st with
  | nil => rfl
  | cons e a ih =>
    have he := ha e (List.mem_cons_self _ _)
    have h1 : ¬ (e = Event.digitalWrite s.latchPin true ∧ st s.latchPin = false) :=
      fun h => he.1 h.1
    have h2 : ¬ (e = Event.digitalWrite s.clockPin true ∧ st s.clockPin = false) :=
      fun h => he.2 h.1
    rw [List.cons_append, latchedBytes_cons, if_neg h1, if_neg h2, List.nil_append, run_cons]
    exact ih (fun e1 h1 => ha e1 (List.mem_cons_of_mem _ h1)) (step st e)

/-- Eight shifts replace the register by the bits shifted in. -/
theorem shift_eight (reg : Nat) (b7 b6 b5 b4 b3 b2 b1 b0 : Bool) :
    [b7, b6, b5, b4, b3, b2, b1, b0].foldl (fun r bit => (2 * r + bit.toNat) % 256) reg
      = bitsToNat [b7, b6, b5, b4, b3, b2, b1, b0] := by
  have h7 := Bool.toNat_le b7
  have h6 := Bool.toNat_le b6
  have h5 := Bool.toNat_le b5
  have h4 := Bool.toNat_le b4
  have h3 := Bool.toNat_le b3
  have h2 := Bool.toNat_le b2
  have h1 := Bool.toNat_le b1
  have h0 := Bool.toNat_le b0
  simp only [bitsToNat, List.foldl]
  omega

theorem shiftOut_eq_clockIn (s : SevSeg) (b : Nat) :
    shiftOut s b
      = ([7, 6, 5, 4, 3, 2, 1, 0].map fun i => b.testBit i).flatMap (clockIn s)
        ++ [Event.digitalWrite s.clockPin false] := by
  rw [shiftOut_eq]
  rfl

/-- With the latch low, clocking in `bits` and raising the latch moves the shifted register
to the outputs. -/
theorem latchedBytes_clockIn (s : SevSeg) (hld : s.latchPin ≠ s.dataPin)
    (hlc : s.latchPin ≠ s.clockPin) (hdc : s.dataPin ≠ s.clockPin) (bits : List Bool)
    (st : Nat → Bool) (reg : Nat) :
    st s.latchPin = false →
    latchedBytes s st reg (bits.flatMap (clockIn s)
        ++ [Event.digitalWrite s.clockPin false, Event.digitalWrite s.latchPin true])
      = [bits.foldl (fun r bit => (2 * r + bit.toNat) % 256) reg] := by
  induction bits generalizing st reg with
  | nil =>
    intro hst
    simp [latchedBytes_cons, latchedBytes_nil, step, Function.update, hlc, hlc.symm, hst]
  | cons bit bits ih =>
    intro hst
    simp only [List.flatMap_cons, clockIn, List.cons_append, List.nil_append,
      latchedBytes_cons, List.foldl_cons]
    simp only [step, Function.update, Event.digitalWrite.injEq, hlc.symm, hld.symm, hdc,
      hdc.symm, false_and, and_false, if_false, List.nil_append, eq_rec_constant, dite_eq_ite,
      if_true, and_self, true_and, Bool.false_eq_true]
    rw [ih]
    simp [hld, hlc, hst]

/-- From any pin levels and register content, `shiftWrite b` moves exactly the byte `b` to
the outputs. -/
theorem latchedBytes_shiftWrite (s : SevSeg) (b : Nat) (hb : b < 256)
    (hld : s.latchPin ≠ s.dataPin) (hlc : s.latchPin ≠ s.clockPin)
    (hdc : s.dataPin ≠ s.clockPin) (st : Nat → Bool) (reg : Nat) :
    latchedBytes s st reg (shiftWrite s b) = [b] := by
  have hlatch : ¬ (Event.digitalWrite s.latchPin LOW = Event.digitalWrite s.latchPin true
      ∧ st s.latchPin = false) := by simp [LOW]
  have hclock : ¬ (Event.digitalWrite s.latchPin LOW = Event.digitalWrite s.clockPin true
      ∧ st s.clockPin = false) := by simp [LOW]
  rw [shiftWrite, shiftOut_eq_clockIn, List.append_assoc, List.append_assoc,
    List.singleton_append, latchedBytes_cons, if_neg hlatch, if_neg hclock, List.nil_append]
  have h := latchedBytes_clockIn s hld hlc hdc
    ([7, 6, 5, 4, 3, 2, 1, 0].map fun i => b.testBit i)
    (step st (Event.digitalWrite s.latchPin LOW)) reg (by simp [step, LOW])
  simp only [List.singleton_append, HIGH] at h ⊢
  rw [h]
  simp only [List.map]
  rw [shift_eight]
  have hbits := bitsToNat_testBit b hb
  simp only [List.range, List.range.loop, List.map] at hbits
  simpa using hbits

/-! ## SetBrightness -/

theorem map_percent (FRAMEPERIOD : Int) (hFP : 0 ≤ FRAMEPERIOD) (p : Nat) :
    map p 0 100 0 FRAMEPERIOD = (p : Int) * FRAMEPERIOD / 100 := by
  unfold map
  simp only [sub_zero, add_zero]
  exact Int.tdiv_eq_ediv (mul_nonneg (Int.ofNat_nonneg p) hFP) (by decide)

theorem brightnessDelay_SetBrightness (FRAMEPERIOD : Int) (s : SevSeg) (p : Nat)
    (hp : p ≤ 100) :
    (SetBrightness FRAMEPERIOD s p).brightnessDelay = map p 0 100 0 FRAMEPERIOD := by
  have : ¬ p > 100 := by omega
  simp [SetBrightness, this]

/-- C5: for every percent in 0..100 and positive `FRAMEPERIOD`, the on-time stored by
`SetBrightness percent` is the floor of `percent * FRAMEPERIOD / 100`; it lies in the
closed interval from 0 to `FRAMEPERIOD`, 0 maps to 0 and 100 maps to `FRAMEPERIOD`. -/
theorem SetBrightness_linear (FRAMEPERIOD : Int) (hFP : 0 < FRAMEPERIOD) (s : SevSeg)
    (percent : Nat) (hp : percent ≤ 100) :
    (SetBrightness FRAMEPERIOD s percent).brightnessDelay
        = ⌊((percent : ℚ) * (FRAMEPERIOD : ℚ)) / 100⌋
      ∧ (SetBrightness FRAMEPERIOD s percent).brightnessDelay
        = (percent : Int) * FRAMEPERIOD / 100
      ∧ 0 ≤ (SetBrightness FRAMEPERIOD s percent).brightnessDelay
      ∧ (SetBrightness FRAMEPERIOD s percent).brightnessDelay ≤ FRAMEPERIOD
      ∧ (SetBrightness FRAMEPERIOD s 0).brightnessDelay = 0
      ∧ (SetBrightness FRAMEPERIOD s 100).brightnessDelay = FRAMEPERIOD := by
  have h := brightnessDelay_SetBrightness FRAMEPERIOD s percent hp
  rw [map_percent FRAMEPERIOD hFP.le] at h
  have hfloor : ⌊((percent : ℚ) * (FRAMEPERIOD : ℚ)) / 100⌋ = (percent : Int) * FRAMEPERIOD / 100 := by
    have := Rat.floor_intCast_div_natCast ((percent : Int) * FRAMEPERIOD) 100
    push_cast at this
    exact this
  have hp' : (percent : Int) ≤ 100 := by exact_mod_cast hp
  have hp0 : (0 : Int) ≤ percent := Int.ofNat_nonneg percent
  refine ⟨by rw [h, hfloor], h, ?_, ?_, ?_, ?_⟩
  · rw [h]
    exact Int.ediv_nonneg (mul_nonneg hp0 hFP.le) (by decide)
  · rw [h]
    have : (percent : Int) * FRAMEPERIOD ≤ FRAMEPERIOD * 100 := by nlinarith
    calc (percent : Int) * FRAMEPERIOD / 100 ≤ FRAMEPERIOD * 100 / 100 :=
          Int.ediv_le_ediv (by decide) this
      _ = FRAMEPERIOD := Int.mul_ediv_cancel _ (by decide)
  · rw [brightnessDelay_SetBrightness FRAMEPERIOD s 0 (by decide), map_percent FRAMEPERIOD hFP.le]
    simp
  · rw [brightnessDelay_SetBrightness FRAMEPERIOD s 100 (by decide), map_percent FRAMEPERIOD hFP.le]
    have : ((100 : Nat) : Int) * FRAMEPERIOD = FRAMEPERIOD * 100 := by push_cast; ring
    rw [this]
    exact Int.mul_ediv_cancel _ (by decide)

/-- Witness of C5: 50 percent of a frame of 2000. -/
theorem SetBrightness_linear_witness :
    ((0 : Int) < 2000 ∧ 50 ≤ 100)
      ∧ ((SetBrightness 2000 wired 50).brightnessDelay
            = ⌊(((50 : Nat) : ℚ) * ((2000 : Int) : ℚ)) / 100⌋
        ∧ (SetBrightness 2000 wired 50).brightnessDelay = ((50 : Nat) : Int) * 2000 / 100
        ∧ 0 ≤ (SetBrightness 2000 wired 50).brightnessDelay
        ∧ (SetBrightness 2000 wired 50).brightnessDelay ≤ 2000
        ∧ (SetBrightness 2000 wired 0).brightnessDelay = 0
        ∧ (SetBrightness 2000 wired 100).brightnessDelay = 2000) :=
  ⟨by decide, SetBrightness_linear 2000 (by decide) wired 50 (by decide)⟩

/-- C6: for every percent above 100, `SetBrightness percent` leaves the driver in the same
state as `SetBrightness 100`: the stored on-time is `FRAMEPERIOD` and no other field
changes. -/
theorem SetBrightness_clamps (FRAMEPERIOD : Int) (s : SevSeg) (percent : Nat)
    (hlo : 100 < percent) :
    SetBrightness FRAMEPERIOD s percent = SetBrightness FRAMEPERIOD s 100
      ∧ (SetBrightness FRAMEPERIOD s percent).brightnessDelay = FRAMEPERIOD
      ∧ SetBrightness FRAMEPERIOD s percent = { s with brightnessDelay := FRAMEPERIOD } := by
  have h100 : map 100 0 100 0 FRAMEPERIOD = FRAMEPERIOD := by
    unfold map
    simp
  simp [SetBrightness, hlo, h100]

/-- Witness of C6: 255 percent of a frame of 2000. -/
theorem SetBrightness_clamps_witness :
    100 < 255
      ∧ (SetBrightness 2000 wired 255 = SetBrightness 2000 wired 100
        ∧ (SetBrightness 2000 wired 255).brightnessDelay = 2000
        ∧ SetBrightness 2000 wired 255 = { wired with brightnessDelay := 2000 }) :=
  ⟨by decide, SetBrightness_clamps 2000 wired 255 (by decide)⟩

/-! ## Begin -/

theorem beginLoop_eq (s : SevSeg) (k d : Nat) (h : d + k ≤ s.DigitPins.length) :
    beginLoop s k d
      = some (((s.DigitPins.drop d).take k).flatMap fun p =>
          [Event.digitalWrite p s.DigitOff, Event.pinMode p OUTPUT]) := by
  induction k generalizing d with
  | zero => simp [beginLoop]
  | succ k ih =>
    have hd : d < s.DigitPins.length := by omega
    have hdrop : s.DigitPins.drop d = s.DigitPins[d] :: s.DigitPins.drop (d + 1) :=
      List.drop_eq_getElem_cons hd
    rw [beginLoop, List.getElem?_eq_getElem hd, ih (d + 1) (by omega), hdrop]
    simp only [Option.some_bind, Option.map_some', List.take_succ_cons, List.flatMap_cons]

theorem Begin_eq (s : SevSeg) (mode_in : Bool)
    (n digit1 digit2 digit3 digit4 latch data clock : Nat) (hn : n ≤ 4) :
    Begin s mode_in n digit1 digit2 digit3 digit4 latch data clock
      = some (configured s mode_in n digit1 digit2 digit3 digit4 latch data clock,
          beginTrace (configured s mode_in n digit1 digit2 digit3 digit4 latch data clock)) := by
  have hlen : 0 + n ≤ [digit1, digit2, digit3, digit4].length := by simpa using hn
  cases mode_in
  · simp only [Begin, COMMON_ANODE, HIGH, LOW, Bool.false_eq_true, if_false]
    rw [beginLoop_eq _ _ _ hlen]
    simp [beginTrace, beginDigits, beginSerial, configured, LOW]
  · simp only [Begin, COMMON_ANODE, HIGH, LOW, if_true]
    rw [beginLoop_eq _ _ _ hlen]
    simp [beginTrace, beginDigits, beginSerial, configured, LOW]

theorem pairwise_ne_of_nodup (digit1 digit2 digit3 digit4 latch data clock : Nat)
    (hdistinct : [digit1, digit2, digit3, digit4, latch, data, clock].Nodup) :
    digit1 ≠ digit2 ∧ digit1 ≠ digit3 ∧ digit1 ≠ digit4 ∧ digit1 ≠ latch
      ∧ digit1 ≠ data ∧ digit1 ≠ clock ∧ digit2 ≠ digit3 ∧ digit2 ≠ digit4 ∧ digit2 ≠ latch
      ∧ digit2 ≠ data ∧ digit2 ≠ clock ∧ digit3 ≠ digit4 ∧ digit3 ≠ latch ∧ digit3 ≠ data
      ∧ digit3 ≠ clock ∧ digit4 ≠ latch ∧ digit4 ≠ data ∧ digit4 ≠ clock ∧ latch ≠ data
      ∧ latch ≠ clock ∧ data ≠ clock := by
  simp only [List.nodup_cons, List.mem_cons, List.mem_singleton, not_or] at hdistinct
  tauto

/-- Distinct pins: a digit pin is none of the three serial pins. -/
theorem digit_ne_serial (digit1 digit2 digit3 digit4 latch data clock : Nat)
    (hdistinct : [digit1, digit2, digit3, digit4, latch, data, clock].Nodup) (p : Nat)
    (hp : p ∈ [digit1, digit2, digit3, digit4]) : p ≠ latch ∧ p ≠ data ∧ p ≠ clock := by
  have hpins : ([digit1, digit2, digit3, digit4] ++ [latch, data, clock]).Nodup := hdistinct
  rw [List.nodup_append] at hpins
  refine ⟨?_, ?_, ?_⟩ <;> intro h <;> exact hpins.2.2 hp (by rw [h]; simp)

theorem pinOf_mem_beginDigits (s1 : SevSeg) :
    ∀ e ∈ beginDigits s1, ∃ q ∈ s1.DigitPins.take s1.numberOfDigits, pinOf e = some q := by
  intro e he
  simp only [beginDigits, List.mem_flatMap, List.mem_cons, List.mem_singleton,
    List.not_mem_nil, or_false] at he
  rcases he with ⟨q, hq, rfl | rfl⟩
  · exact ⟨q, hq, rfl⟩
  · exact ⟨q, hq, rfl⟩

theorem pinOf_mem_beginSerial (s1 : SevSeg) :
    ∀ e ∈ beginSerial s1,
      pinOf e = some s1.latchPin ∨ pinOf e = some s1.dataPin ∨ pinOf e = some s1.clockPin := by
  intro e he
  simp only [beginSerial, List.mem_append, List.mem_cons, List.mem_singleton,
    List.not_mem_nil, or_false] at he
  rcases he with (rfl | rfl | rfl | rfl | rfl) | he
  · exact Or.inl rfl
  · exact Or.inr (Or.inl rfl)
  · exact Or.inr (Or.inr rfl)
  · exact Or.inr (Or.inl rfl)
  · exact Or.inr (Or.inr rfl)
  · exact pinOf_mem_shiftWrite s1 _ e he

theorem latchedBytes_beginTrace (s : SevSeg) (mode_in : Bool)
    (n digit1 digit2 digit3 digit4 latch data clock : Nat)
    (hdistinct : [digit1, digit2, digit3, digit4, latch, data, clock].Nodup)
    (st : Nat → Bool) (reg : Nat) :
    latchedBytes (configured s mode_in n digit1 digit2 digit3 digit4 latch data clock) st reg
        (beginTrace (configured s mode_in n digit1 digit2 digit3 digit4 latch data clock))
      = [if mode_in = COMMON_ANODE then 0x00 else 0xFF] := by
  obtain ⟨_, _, _, _, _, _, _, _, _, _, _, _, _, _, _, _, _, _, hld, hlc, hdc⟩ :=
    pairwise_ne_of_nodup _ _ _ _ _ _ _ hdistinct
  have hquiet : ∀ e ∈ beginDigits (configured s mode_in n digit1 digit2 digit3 digit4 latch data
        clock) ++ [Event.pinMode latch OUTPUT, Event.pinMode data OUTPUT,
          Event.pinMode clock OUTPUT, Event.digitalWrite data LOW,
          Event.digitalWrite clock LOW],
      e ≠ Event.digitalWrite latch true ∧ e ≠ Event.digitalWrite clock true := by
    intro e he
    rcases List.mem_append.1 he with he | he
    · obtain ⟨q, hq, hqe⟩ := pinOf_mem_beginDigits _ e he
      obtain ⟨hl1, _, hc1⟩ := digit_ne_serial _ _ _ _ _ _ _ hdistinct q
        (List.mem_of_mem_take hq)
      constructor <;> intro h <;> rw [h] at hqe <;>
        simp only [pinOf, Option.some.injEq] at hqe
      · exact hl1 hqe.symm
      · exact hc1 hqe.symm
    · simp only [List.mem_cons, List.mem_singleton, List.not_mem_nil, or_false] at he
      rcases he with rfl | rfl | rfl | rfl | rfl <;> simp [LOW, hld.symm]
  have hsplit : beginTrace (configured s mode_in n digit1 digit2 digit3 digit4 latch data clock)
      = (beginDigits (configured s mode_in n digit1 digit2 digit3 digit4 latch data clock)
          ++ [Event.pinMode latch OUTPUT, Event.pinMode data OUTPUT,
            Event.pinMode clock OUTPUT, Event.digitalWrite data LOW,
            Event.digitalWrite clock LOW])
        ++ shiftWrite (configured s mode_in n digit1 digit2 digit3 digit4 latch data clock)
            (if mode_in = COMMON_ANODE then 0x00 else 0xFF) := by
    simp [beginTrace, beginSerial, configured, COMMON_ANODE]
  rw [hsplit, latchedBytes_append_of_quiet _ _ _ hquiet]
  exact latchedBytes_shiftWrite _ _ (by split <;> decide) hld hlc hdc _ _

/-- C8 (counterexample): in common-anode mode the one byte `Begin` moves to the outputs of
the shift register is 0x00, not 0xFF. -/
theorem Begin_blank_byte_counterexample :
    (Begin wired COMMON_ANODE 4 2 3 4 5 8 9 10).map (fun r => latchedBytes r.1 allLow 0 r.2)
        = some [0x00]
      ∧ ¬ (Begin wired COMMON_ANODE 4 2 3 4 5 8 9 10).map
            (fun r => latchedBytes r.1 allLow 0 r.2) = some [0xFF] := by
  constructor <;> decide

/-- C8 (amended): in both polarity modes, with a digit count up to 4 and pairwise distinct
pins, `Begin` returns and its trace ends with the events of one `shiftWrite`; replayed from
any pin levels and register content, the trace moves exactly one byte to the outputs of the
shift register. The byte is chosen by the polarity: 0x00 in common-anode mode, and 0xFF,
the byte `DisplayString` writes to blank the segments, in common-cathode mode. -/
theorem Begin_blank_byte (s : SevSeg) (mode_in : Bool)
    (n digit1 digit2 digit3 digit4 latch data clock : Nat) (hn : n ≤ 4)
    (hdistinct : [digit1, digit2, digit3, digit4, latch, data, clock].Nodup)
    (st : Nat → Bool) (reg : Nat) :
    ∃ s1 tr, Begin s mode_in n digit1 digit2 digit3 digit4 latch data clock = some (s1, tr)
      ∧ latchedBytes s1 st reg tr = [if mode_in = COMMON_ANODE then 0x00 else 0xFF]
      ∧ ∃ pre, tr = pre ++ shiftWrite s1 (if mode_in = COMMON_ANODE then 0x00 else 0xFF) := by
  refine ⟨_, _, Begin_eq s mode_in n digit1 digit2 digit3 digit4 latch data clock hn,
    latchedBytes_beginTrace s mode_in n digit1 digit2 digit3 digit4 latch data clock hdistinct
      st reg, ?_⟩
  refine ⟨beginDigits (configured s mode_in n digit1 digit2 digit3 digit4 latch data clock)
    ++ [Event.pinMode latch OUTPUT, Event.pinMode data OUTPUT, Event.pinMode clock OUTPUT,
      Event.digitalWrite data LOW, Event.digitalWrite clock LOW], ?_⟩
  simp [beginTrace, beginSerial, configured, COMMON_ANODE]

/-- Witness of C8 (amended): common cathode, four digits. -/
theorem Begin_blank_byte_witness :
    (4 ≤ 4 ∧ [2, 3, 4, 5, 8, 9, 10].Nodup)
      ∧ ∃ s1 tr, Begin wired COMMON_CATHODE 4 2 3 4 5 8 9 10 = some (s1, tr)
        ∧ latchedBytes s1 allLow 0 tr = [if COMMON_CATHODE = COMMON_ANODE then 0x00 else 0xFF]
        ∧ ∃ pre, tr = pre
            ++ shiftWrite s1 (if COMMON_CATHODE = COMMON_ANODE then 0x00 else 0xFF) :=
  ⟨by decide,
    Begin_blank_byte wired COMMON_CATHODE 4 2 3 4 5 8 9 10 (by decide) (by decide) allLow 0⟩

/-- C9: for either polarity mode (and a digit count up to 4) `Begin` returns, and in the
driver it leaves the digit-off level is the inverse of the digit-on level, the segment-off
level the inverse of the segment-on level, and the digit-on level the inverse of the
segment-on level: common anode has DigitOn HIGH and SegOn LOW, common cathode has DigitOn
LOW and SegOn HIGH. -/
theorem Begin_polarity_levels (s : SevSeg) (mode_in : Bool)
    (n digit1 digit2 digit3 digit4 latch data clock : Nat) (hn : n ≤ 4) :
    ∃ s1 tr, Begin s mode_in n digit1 digit2 digit3 digit4 latch data clock = some (s1, tr)
      ∧ s1.DigitOff = (!s1.DigitOn) ∧ s1.SegOff = (!s1.SegOn) ∧ s1.DigitOn = (!s1.SegOn)
      ∧ (mode_in = COMMON_ANODE → s1.DigitOn = HIGH ∧ s1.SegOn = LOW)
      ∧ (mode_in = COMMON_CATHODE → s1.DigitOn = LOW ∧ s1.SegOn = HIGH) := by
  refine ⟨_, _, Begin_eq s mode_in n digit1 digit2 digit3 digit4 latch data clock hn, ?_⟩
  cases mode_in <;> simp [configured, COMMON_ANODE, COMMON_CATHODE, HIGH, LOW]

/-- Witness of C9: common anode, four digits. -/
theorem Begin_polarity_levels_witness :
    4 ≤ 4
      ∧ ∃ s1 tr, Begin wired COMMON_ANODE 4 2 3 4 5 8 9 10 = some (s1, tr)
        ∧ s1.DigitOff = (!s1.DigitOn) ∧ s1.SegOff = (!s1.SegOn) ∧ s1.DigitOn = (!s1.SegOn)
        ∧ (COMMON_ANODE = COMMON_ANODE → s1.DigitOn = HIGH ∧ s1.SegOn = LOW)
        ∧ (COMMON_ANODE = COMMON_CATHODE → s1.DigitOn = LOW ∧ s1.SegOn = HIGH) :=
  ⟨by decide, Begin_polarity_levels wired COMMON_ANODE 4 2 3 4 5 8 9 10 (by decide)⟩

theorem beginTrace_off_before_output (s : SevSeg) (mode_in : Bool)
    (n digit1 digit2 digit3 digit4 latch data clock : Nat) (hn : n ≤ 4)
    (hdistinct : [digit1, digit2, digit3, digit4, latch, data, clock].Nodup) (p : Nat)
    (hp : p ∈ [digit1, digit2, digit3, digit4].take n) (st : Nat → Bool) :
    AtEachEvent (fun st e _ => ∀ m, e = Event.pinMode p m → st p = (!mode_in)) st
      (beginTrace (configured s mode_in n digit1 digit2 digit3 digit4 latch data clock)) := by
  obtain ⟨h12, h13, h14, h1l, h1d, h1c, h23, h24, h2l, h2d, h2c, h34, h3l, h3d, h3c, h4l, h4d,
    h4c, hld, hlc, hdc⟩ := pairwise_ne_of_nodup _ _ _ _ _ _ _ hdistinct
  clear hdistinct
  simp only [beginTrace, beginDigits, beginSerial, shiftWrite, shiftOut_eq]
  interval_cases n <;> simp at hp <;> (try casesm* _ ∨ _) <;> subst_vars <;>
    simp [AtEachEvent, step, Function.update, configured, LOW, HIGH, OUTPUT, *]

theorem beginTrace_never_on (s : SevSeg) (mode_in : Bool)
    (n digit1 digit2 digit3 digit4 latch data clock : Nat)
    (hdistinct : [digit1, digit2, digit3, digit4, latch, data, clock].Nodup) (p : Nat)
    (hp : p ∈ [digit1, digit2, digit3, digit4].take n) :
    Event.digitalWrite p mode_in ∉ beginTrace (configured s mode_in n digit1 digit2 digit3 digit4 latch data clock) := by
  obtain ⟨hl, hd, hc⟩ := digit_ne_serial _ _ _ _ _ _ _ hdistinct p (List.mem_of_mem_take hp)
  intro he
  rcases List.mem_append.1 he with he | he
  · simp only [beginDigits, List.mem_flatMap, List.mem_cons, List.mem_singleton,
      List.not_mem_nil, or_false] at he
    rcases he with ⟨q, _, he | he⟩
    · injection he with _ hv
      cases mode_in <;> simp [configured] at hv
    · cases he
  · rcases pinOf_mem_beginSerial _ _ he with hs | hs | hs <;>
      simp only [pinOf, Option.some.injEq, configured] at hs
    · exact hl hs
    · exact hd hs
    · exact hc hs

theorem beginTrace_untouched (s : SevSeg) (mode_in : Bool)
    (n digit1 digit2 digit3 digit4 latch data clock : Nat)
    (hdistinct : [digit1, digit2, digit3, digit4, latch, data, clock].Nodup) (p : Nat)
    (hp : p ∈ [digit1, digit2, digit3, digit4].drop n) :
    ∀ e ∈ beginTrace (configured s mode_in n digit1 digit2 digit3 digit4 latch data clock), pinOf e ≠ some p := by
  intro e he
  obtain ⟨hl, hd, hc⟩ := digit_ne_serial _ _ _ _ _ _ _ hdistinct p (List.mem_of_mem_drop hp)
  have hpins : ([digit1, digit2, digit3, digit4] ++ [latch, data, clock]).Nodup := hdistinct
  rw [List.nodup_append] at hpins
  rcases List.mem_append.1 he with he | he
  · obtain ⟨q, hq, hqe⟩ := pinOf_mem_beginDigits _ e he
    rw [hqe]
    intro hqp
    injection hqp with hqp
    subst hqp
    exact List.disjoint_take_drop hpins.1 (le_refl n) hq hp
  · rcases pinOf_mem_beginSerial _ _ he with hs | hs | hs <;> rw [hs] <;> intro hqp <;>
      injection hqp with hqp
    · exact hl hqp.symm
    · exact hd hqp.symm
    · exact hc hqp.symm

theorem beginTrace_digits_first (s : SevSeg) (mode_in : Bool)
    (n digit1 digit2 digit3 digit4 latch data clock : Nat)
    (hdistinct : [digit1, digit2, digit3, digit4, latch, data, clock].Nodup)
    (pre post : List Event) (pin : Nat) (val : Bool)
    (hsplit : beginTrace (configured s mode_in n digit1 digit2 digit3 digit4 latch data clock) = pre ++ Event.digitalWrite pin val :: post)
    (hpin : pin ∈ [latch, data, clock]) :
    ∀ e ∈ post, ∀ p ∈ [digit1, digit2, digit3, digit4].take n, pinOf e ≠ some p := by
  intro e he p hp
  obtain ⟨hl, hd, hc⟩ := digit_ne_serial _ _ _ _ _ _ _ hdistinct p (List.mem_of_mem_take hp)
  have hnotA : Event.digitalWrite pin val ∉ beginDigits (configured s mode_in n digit1 digit2 digit3 digit4 latch data clock) := by
    intro hA
    obtain ⟨q, hq, hqe⟩ := pinOf_mem_beginDigits _ _ hA
    simp only [pinOf, Option.some.injEq] at hqe
    obtain ⟨hl1, hd1, hc1⟩ := digit_ne_serial _ _ _ _ _ _ _ hdistinct q
      (List.mem_of_mem_take hq)
    simp only [List.mem_cons, List.mem_singleton, List.not_mem_nil, or_false] at hpin
    rcases hpin with h | h | h
    · exact hl1 (by rw [← hqe, h])
    · exact hd1 (by rw [← hqe, h])
    · exact hc1 (by rw [← hqe, h])
  have heB := mem_post_of_split hsplit hnotA e he
  rcases pinOf_mem_beginSerial _ _ heB with hs | hs | hs <;> rw [hs] <;> intro hqp <;>
    injection hqp with hqp
  · exact hl hqp.symm
  · exact hd hqp.symm
  · exact hc hqp.symm

/-- C10: for a digit count `n` up to 4, either polarity mode and pairwise distinct pins,
`Begin` returns and in its trace (1) each of the first `n` digit pins is switched to output
mode, and whenever it is, its level has already been written to the digit-off level,
whatever the levels were before the call; (2) none of the first `n` digit pins is ever
written to the digit-on level; (3) no event touches a digit pin of index `n` or more;
(4) after a write to a serial-interface pin (latch, data, clock) no event touches any of the
first `n` digit pins, so all digit-pin events precede the first such write. -/
theorem Begin_digit_pins_off_first (s : SevSeg) (mode_in : Bool)
    (n digit1 digit2 digit3 digit4 latch data clock : Nat) (hn : n ≤ 4)
    (hdistinct : [digit1, digit2, digit3, digit4, latch, data, clock].Nodup) :
    ∃ s1 tr, Begin s mode_in n digit1 digit2 digit3 digit4 latch data clock = some (s1, tr)
      ∧ (∀ p ∈ s1.DigitPins.take n,
          Event.pinMode p OUTPUT ∈ tr
          ∧ ∀ st pre m post, tr = pre ++ Event.pinMode p m :: post → run st pre p = s1.DigitOff)
      ∧ (∀ p ∈ s1.DigitPins.take n, Event.digitalWrite p s1.DigitOn ∉ tr)
      ∧ (∀ p ∈ s1.DigitPins.drop n, ∀ e ∈ tr, pinOf e ≠ some p)
      ∧ (∀ pre pin val post, tr = pre ++ Event.digitalWrite pin val :: post →
          pin ∈ [s1.latchPin, s1.dataPin, s1.clockPin] →
          ∀ e ∈ post, ∀ p ∈ s1.DigitPins.take n, pinOf e ≠ some p) := by
  refine ⟨_, _, Begin_eq s mode_in n digit1 digit2 digit3 digit4 latch data clock hn, ?_, ?_, ?_, ?_⟩
  · intro p hp
    constructor
    · simp only [beginTrace, beginDigits, List.mem_append, List.mem_flatMap]
      exact Or.inl ⟨p, by simpa [configured] using hp, by simp⟩
    · intro st pre m post hd
      exact (atEachEvent_iff _ st _).1
        (beginTrace_off_before_output s mode_in n digit1 digit2 digit3 digit4 latch data clock
          hn hdistinct p hp st) pre _ post hd m rfl
  · intro p hp
    exact beginTrace_never_on s mode_in n digit1 digit2 digit3 digit4 latch data clock
      hdistinct p hp
  · intro p hp
    exact beginTrace_untouched s mode_in n digit1 digit2 digit3 digit4 latch data clock
      hdistinct p hp
  · intro pre pin val post hd hpin
    exact beginTrace_digits_first s mode_in n digit1 digit2 digit3 digit4 latch data clock
      hdistinct pre post pin val hd hpin

/-- Witness of C10: common cathode, three digits in use. -/
theorem Begin_digit_pins_off_first_witness :
    (3 ≤ 4 ∧ [2, 3, 4, 5, 8, 9, 10].Nodup)
      ∧ ∃ s1 tr, Begin wired COMMON_CATHODE 3 2 3 4 5 8 9 10 = some (s1, tr)
        ∧ (∀ p ∈ s1.DigitPins.take 3,
            Event.pinMode p OUTPUT ∈ tr
            ∧ ∀ st pre m post, tr = pre ++ Event.pinMode p m :: post →
                run st pre p = s1.DigitOff)
        ∧ (∀ p ∈ s1.DigitPins.take 3, Event.digitalWrite p s1.DigitOn ∉ tr)
        ∧ (∀ p ∈ s1.DigitPins.drop 3, ∀ e ∈ tr, pinOf e ≠ some p)
        ∧ (∀ pre pin val post, tr = pre ++ Event.digitalWrite pin val :: post →
            pin ∈ [s1.latchPin, s1.dataPin, s1.clockPin] →
            ∀ e ∈ post, ∀ p ∈ s1.DigitPins.take 3, pinOf e ≠ some p) :=
  ⟨by decide,
    Begin_digit_pins_off_first wired COMMON_CATHODE 3 2 3 4 5 8 9 10 (by decide) (by decide)⟩

/-! ## DisplayString -/

theorem displayLoop_eq (FRAMEPERIOD : Int) (characterArray : Nat → Nat) (s : SevSeg)
    (toDisplay : Nat → Nat) (k d : Nat) (h : d + k ≤ s.DigitPins.length) :
    displayLoop FRAMEPERIOD characterArray s toDisplay k d
      = some (windows FRAMEPERIOD s toDisplay ((s.DigitPins.drop d).take k) d) := by
  induction k generalizing d with
  | zero => simp [displayLoop, windows]
  | succ k ih =>
    have hd : d < s.DigitPins.length := by omega
    have hdrop : s.DigitPins.drop d = s.DigitPins[d] :: s.DigitPins.drop (d + 1) :=
      List.drop_eq_getElem_cons hd
    rw [displayLoop, displayDigit, List.getElem?_eq_getElem hd, ih (d + 1) (by omega), hdrop]
    simp only [Option.some_bind, Option.map_some', List.take_succ_cons, windows, window]

theorem DisplayString_eq (FRAMEPERIOD : Int) (characterArray : Nat → Nat) (s : SevSeg)
    (toDisplay : Nat → Nat) (DecAposColon : Nat) (h : s.numberOfDigits ≤ s.DigitPins.length) :
    DisplayString FRAMEPERIOD characterArray s toDisplay DecAposColon
      = some (windows FRAMEPERIOD s toDisplay (s.DigitPins.take s.numberOfDigits) 0) := by
  rw [DisplayString, displayLoop_eq _ _ _ _ _ _ (by omega)]
  simp

theorem displayLoop_table_free (FRAMEPERIOD : Int) (table1 table2 : Nat → Nat) (s : SevSeg)
    (toDisplay : Nat → Nat) (k d : Nat) :
    displayLoop FRAMEPERIOD table1 s toDisplay k d
      = displayLoop FRAMEPERIOD table2 s toDisplay k d := by
  induction k generalizing d with
  | zero => rfl
  | succ k ih =>
    have hd : displayDigit FRAMEPERIOD table1 s toDisplay d
        = displayDigit FRAMEPERIOD table2 s toDisplay d := rfl
    simp only [displayLoop, hd, ih]

/-- C2 (the code at the failing input): in the end-to-end scenario, whatever the character
table, the byte moved to the outputs of the shift register while digit 1 is lit is 0xCE,
the complement of the character code 0x31 of the text; with the usual pattern 0x06 for the
character 1 the complement of the table entry is 0xF9. -/
theorem DisplayString_writes_character_code (characterArray : Nat → Nat) :
    scenario characterArray
        = some [(0xCC, [0]), (0xFF, [0]), (0xCE, [1]), (0xFF, [1]), (0xCB, [2]),
            (0xFF, [2]), (0xCE, [3]), (0xFF, [3])]
      ∧ complementByte (text3141 1) = 0xCE
      ∧ complementByte (glyphs (text3141 1)) = 0xF9 := by
  have htable : scenario characterArray = scenario glyphs := by
    simp only [scenario, DisplayString, displayLoop_table_free _ characterArray glyphs]
  rw [htable]
  refine ⟨?_, by decide, by decide⟩
  set_option maxRecDepth 100000 in decide

theorem onlyLit_congr (pins : List Nat) (off : Bool) (st1 st2 : Nat → Bool)
    (h : ∀ q ∈ pins, st1 q = st2 q) : OnlyLit pins off st1 → OnlyLit pins off st2 := by
  rintro ⟨lit, hlit⟩
  exact ⟨lit, fun q hq hne => by rw [← h q hq]; exact hlit q hq hne⟩

/-- The events of a window between the two writes to its digit pin. -/
theorem window_eq (FRAMEPERIOD : Int) (s : SevSeg) (pin c : Nat) :
    window FRAMEPERIOD s pin c
      = Event.digitalWrite pin s.DigitOn
        :: ((shiftWrite s (complementByte c)
              ++ [Event.delayMicroseconds (s.brightnessDelay + 1)] ++ shiftWrite s 0xFF)
            ++ [Event.digitalWrite pin s.DigitOff,
                Event.delayMicroseconds (FRAMEPERIOD - s.brightnessDelay + 1)]) := by
  simp [window]

theorem window_middle_untouched (s : SevSeg) (pins : List Nat) (b1 b2 : Nat) (us : Int)
    (hserial : ∀ p ∈ pins, p ≠ s.latchPin ∧ p ≠ s.dataPin ∧ p ≠ s.clockPin) :
    ∀ e ∈ shiftWrite s b1 ++ [Event.delayMicroseconds us] ++ shiftWrite s b2,
      ∀ q ∈ pins, pinOf e ≠ some q := by
  intro e he q hq
  obtain ⟨hl, hd, hc⟩ := hserial q hq
  have hsw : ∀ b, e ∈ shiftWrite s b → pinOf e ≠ some q := by
    intro b hb
    rcases pinOf_mem_shiftWrite s b e hb with h | h | h <;> rw [h] <;> intro hq1 <;>
      injection hq1 with hq1
    · exact hl hq1.symm
    · exact hd hq1.symm
    · exact hc hq1.symm
  simp only [List.mem_append, List.mem_singleton] at he
  rcases he with (he | rfl) | he
  · exact hsw b1 he
  · simp [pinOf]
  · exact hsw b2 he

/-- One window, entered with all digit pins off: at most the pin of the window is lit at
any point, and all digit pins are off at the end. -/
theorem window_one_lit (FRAMEPERIOD : Int) (s : SevSeg) (pins : List Nat) (pin c : Nat)
    (hserial : ∀ p ∈ pins, p ≠ s.latchPin ∧ p ≠ s.dataPin ∧ p ≠ s.clockPin)
    (st : Nat → Bool) (hst : ∀ q ∈ pins, st q = s.DigitOff) :
    AtEachPoint (OnlyLit pins s.DigitOff) st (window FRAMEPERIOD s pin c)
      ∧ ∀ q ∈ pins, run st (window FRAMEPERIOD s pin c) q = s.DigitOff := by
  have h0 : OnlyLit pins s.DigitOff st := ⟨pin, fun q hq _ => hst q hq⟩
  have h1 : OnlyLit pins s.DigitOff (step st (Event.digitalWrite pin s.DigitOn)) := by
    refine ⟨pin, fun q hq hne => ?_⟩
    rw [step_write_ne _ _ _ _ hne, hst q hq]
  obtain ⟨hmid, hkeep⟩ := atEachPoint_of_untouched pins (OnlyLit pins s.DigitOff)
    (onlyLit_congr pins s.DigitOff) _
    (window_middle_untouched s pins (complementByte c) 0xFF (s.brightnessDelay + 1) hserial)
    (step st (Event.digitalWrite pin s.DigitOn)) h1
  have hend : ∀ q ∈ pins,
      step (run (step st (Event.digitalWrite pin s.DigitOn))
        (shiftWrite s (complementByte c) ++ [Event.delayMicroseconds (s.brightnessDelay + 1)]
          ++ shiftWrite s 0xFF)) (Event.digitalWrite pin s.DigitOff) q = s.DigitOff := by
    intro q hq
    by_cases hqp : q = pin
    · rw [hqp, step_write_eq]
    · rw [step_write_ne _ _ _ _ hqp, hkeep q hq, step_write_ne _ _ _ _ hqp, hst q hq]
  have h2 : OnlyLit pins s.DigitOff
      (step (run (step st (Event.digitalWrite pin s.DigitOn))
        (shiftWrite s (complementByte c) ++ [Event.delayMicroseconds (s.brightnessDelay + 1)]
          ++ shiftWrite s 0xFF)) (Event.digitalWrite pin s.DigitOff)) :=
    ⟨pin, fun q hq _ => hend q hq⟩
  rw [window_eq]
  constructor
  · refine ⟨h0, atEachPoint_append _ _ _ _ hmid ?_⟩
    exact ⟨onlyLit_congr pins s.DigitOff _ _ (fun q hq => (hkeep q hq).symm) h1, h2, h2⟩
  · intro q hq
    rw [run_cons, run_append]
    exact hend q hq

theorem windows_one_lit (FRAMEPERIOD : Int) (s : SevSeg) (toDisplay : Nat → Nat)
    (pins : List Nat)
    (hserial : ∀ p ∈ pins, p ≠ s.latchPin ∧ p ≠ s.dataPin ∧ p ≠ s.clockPin)
    (ps : List Nat) (d : Nat) (st : Nat → Bool) (hst : ∀ q ∈ pins, st q = s.DigitOff) :
    AtEachPoint (OnlyLit pins s.DigitOff) st (windows FRAMEPERIOD s toDisplay ps d)
      ∧ ∀ q ∈ pins, run st (windows FRAMEPERIOD s toDisplay ps d) q = s.DigitOff := by
  induction ps generalizing d st with
  | nil => exact ⟨⟨0, fun q hq _ => hst q hq⟩, hst⟩
  | cons p ps ih =>
    obtain ⟨hw, hwend⟩ := window_one_lit FRAMEPERIOD s pins p (toDisplay d) hserial st hst
    obtain ⟨hr, hrend⟩ := ih (d + 1) (run st (window FRAMEPERIOD s p (toDisplay d))) hwend
    refine ⟨atEachPoint_append _ _ _ _ hw hr, ?_⟩
    intro q hq
    rw [windows, run_append]
    exact hrend q hq

theorem digitWrites_append (pins : List Nat) (a b : List Event) :
    digitWrites pins (a ++ b) = digitWrites pins a ++ digitWrites pins b := by
  simp [digitWrites]

theorem digitWrites_of_untouched (pins : List Nat) (tr : List Event)
    (htr : ∀ e ∈ tr, ∀ q ∈ pins, pinOf e ≠ some q) : digitWrites pins tr = [] := by
  rw [digitWrites, List.filter_eq_nil_iff]
  intro e he
  cases e with
  | digitalWrite pin val =>
    have := htr _ he
    simp only [decide_eq_true_eq]
    intro hpin
    exact this pin hpin rfl
  | pinMode pin m => simp
  | delayMicroseconds us => simp

theorem digitWrites_window (FRAMEPERIOD : Int) (s : SevSeg) (pins : List Nat) (pin c : Nat)
    (hserial : ∀ p ∈ pins, p ≠ s.latchPin ∧ p ≠ s.dataPin ∧ p ≠ s.clockPin)
    (hpin : pin ∈ pins) :
    digitWrites pins (window FRAMEPERIOD s pin c)
      = [Event.digitalWrite pin s.DigitOn, Event.digitalWrite pin s.DigitOff] := by
  rw [window_eq, ← List.singleton_append, digitWrites_append, digitWrites_append,
    digitWrites_of_untouched pins _
      (window_middle_untouched s pins (complementByte c) 0xFF (s.brightnessDelay + 1) hserial)]
  simp [digitWrites, hpin]

theorem digitWrites_windows (FRAMEPERIOD : Int) (s : SevSeg) (toDisplay : Nat → Nat)
    (pins : List Nat)
    (hserial : ∀ p ∈ pins, p ≠ s.latchPin ∧ p ≠ s.dataPin ∧ p ≠ s.clockPin)
    (ps : List Nat) (hps : ∀ p ∈ ps, p ∈ pins) (d : Nat) :
    digitWrites pins (windows FRAMEPERIOD s toDisplay ps d)
      = ps.flatMap fun p =>
          [Event.digitalWrite p s.DigitOn, Event.digitalWrite p s.DigitOff] := by
  induction ps generalizing d with
  | nil => rfl
  | cons p ps ih =>
    rw [windows, digitWrites_append,
      digitWrites_window FRAMEPERIOD s pins p _ hserial (hps p (List.mem_cons_self _ _)),
      ih (fun q hq => hps q (List.mem_cons_of_mem _ hq)) (d + 1)]
    rfl

/-- C4: for a digit count `n` up to 4, with the first `n` digit pins pairwise distinct and
distinct from the three serial pins, the digit-off level the inverse of the digit-on level
(as `Begin` sets them) and the first `n` digit pins at the digit-off level on entry,
`DisplayString` returns, and in its trace (1) the writes to the digit pins are exactly, for
the positions 0, 1, ..., n-1 in that order, one write of the digit-on level followed by one
write of the digit-off level; (2) at no point of the trace are the pins of two different
positions both at the digit-on level; (3) at the end all the digit pins are at the
digit-off level. -/
theorem DisplayString_one_digit_at_a_time (FRAMEPERIOD : Int) (characterArray : Nat → Nat)
    (s : SevSeg) (toDisplay : Nat → Nat) (DecAposColon : Nat) (st : Nat → Bool)
    (hn : s.numberOfDigits ≤ 4) (hpins : s.DigitPins.length = 4)
    (hnodup : (s.DigitPins.take s.numberOfDigits).Nodup)
    (hserial : ∀ p ∈ s.DigitPins.take s.numberOfDigits,
      p ≠ s.latchPin ∧ p ≠ s.dataPin ∧ p ≠ s.clockPin)
    (hlevels : s.DigitOff = !s.DigitOn)
    (hoff : ∀ p ∈ s.DigitPins.take s.numberOfDigits, st p = s.DigitOff) :
    ∃ tr, DisplayString FRAMEPERIOD characterArray s toDisplay DecAposColon = some tr
      ∧ digitWrites (s.DigitPins.take s.numberOfDigits) tr
          = (s.DigitPins.take s.numberOfDigits).flatMap (fun p =>
              [Event.digitalWrite p s.DigitOn, Event.digitalWrite p s.DigitOff])
      ∧ (∀ pre post, tr = pre ++ post →
          ∀ i j p q, i < s.numberOfDigits → j < s.numberOfDigits →
            s.DigitPins[i]? = some p → s.DigitPins[j]? = some q →
            run st pre p = s.DigitOn → run st pre q = s.DigitOn → i = j)
      ∧ (∀ p ∈ s.DigitPins.take s.numberOfDigits, run st tr p = s.DigitOff) := by
  have hlen : s.numberOfDigits ≤ s.DigitPins.length := by omega
  obtain ⟨hpoint, hend⟩ := windows_one_lit FRAMEPERIOD s toDisplay
    (s.DigitPins.take s.numberOfDigits) hserial (s.DigitPins.take s.numberOfDigits) 0 st hoff
  refine ⟨_, DisplayString_eq FRAMEPERIOD characterArray s toDisplay DecAposColon hlen,
    digitWrites_windows FRAMEPERIOD s toDisplay _ hserial _ (fun p hp => hp) 0, ?_, hend⟩
  intro pre post hsplit i j p q hi hj hpi hqj hp hq
  obtain ⟨lit, hlit⟩ := (atEachPoint_iff _ st _).1 hpoint pre post hsplit
  have hpi1 : (s.DigitPins.take s.numberOfDigits)[i]? = some p := by
    rw [List.getElem?_take_of_lt hi, hpi]
  have hqj1 : (s.DigitPins.take s.numberOfDigits)[j]? = some q := by
    rw [List.getElem?_take_of_lt hj, hqj]
  have hne : s.DigitOn ≠ s.DigitOff := by
    rw [hlevels]
    cases s.DigitOn <;> decide
  have hpl : p = lit := by
    by_contra h
    exact hne (by rw [← hp, hlit p (List.mem_iff_getElem?.2 ⟨i, hpi1⟩) h])
  have hql : q = lit := by
    by_contra h
    exact hne (by rw [← hq, hlit q (List.mem_iff_getElem?.2 ⟨j, hqj1⟩) h])
  have hi1 : i < (s.DigitPins.take s.numberOfDigits).length := by
    rw [List.length_take]
    omega
  exact List.getElem?_inj hi1 hnodup (by rw [hpi1, hqj1, hpl, hql])

/-- Witness of C4: the wired driver showing 3141, entered with the four digit pins at the
digit-off level. -/
theorem DisplayString_one_digit_at_a_time_witness :
    (wired.numberOfDigits ≤ 4 ∧ wired.DigitPins.length = 4
        ∧ (wired.DigitPins.take wired.numberOfDigits).Nodup
        ∧ (∀ p ∈ wired.DigitPins.take wired.numberOfDigits,
            p ≠ wired.latchPin ∧ p ≠ wired.dataPin ∧ p ≠ wired.clockPin)
        ∧ wired.DigitOff = (!wired.DigitOn)
        ∧ ∀ p ∈ wired.DigitPins.take wired.numberOfDigits,
            digitsHigh p = wired.DigitOff)
      ∧ ∃ tr, DisplayString 2000 glyphs wired text3141 0 = some tr
        ∧ digitWrites (wired.DigitPins.take wired.numberOfDigits) tr
            = (wired.DigitPins.take wired.numberOfDigits).flatMap (fun p =>
                [Event.digitalWrite p wired.DigitOn, Event.digitalWrite p wired.DigitOff])
        ∧ (∀ pre post, tr = pre ++ post →
            ∀ i j p q, i < wired.numberOfDigits → j < wired.numberOfDigits →
              wired.DigitPins[i]? = some p → wired.DigitPins[j]? = some q →
              run digitsHigh pre p = wired.DigitOn →
              run digitsHigh pre q = wired.DigitOn → i = j)
        ∧ (∀ p ∈ wired.DigitPins.take wired.numberOfDigits,
            run digitsHigh tr p = wired.DigitOff) :=
  ⟨by decide,
    DisplayString_one_digit_at_a_time 2000 glyphs wired text3141 0
      digitsHigh (by decide) (by decide) (by decide) (by decide)
      (by decide) (by decide)⟩

theorem delays_append (a b : List Event) : delays (a ++ b) = delays a ++ delays b := by
  induction a with
  | nil => rfl
  | cons e a ih => cases e <;> simp [delays, ih]

theorem delays_shiftOutLoop (s : SevSeg) (b k : Nat) : delays (shiftOutLoop s b k) = [] := by
  induction k with
  | zero => rfl
  | succ k ih => simp [shiftOutLoop, delays, ih]

theorem delays_shiftWrite (s : SevSeg) (b : Nat) : delays (shiftWrite s b) = [] := by
  simp [shiftWrite, shiftOut, delays_append, delays_shiftOutLoop, delays]

theorem holdTimes_windows (FRAMEPERIOD : Int) (s : SevSeg) (toDisplay : Nat → Nat)
    (pins : List Nat) (d : Nat) :
    holdTimes (windows FRAMEPERIOD s toDisplay pins d)
      = List.replicate pins.length
          (s.brightnessDelay + 1, FRAMEPERIOD - s.brightnessDelay + 1) := by
  induction pins generalizing d with
  | nil => rfl
  | cons p pins ih =>
    have := ih (d + 1)
    simp only [holdTimes] at this ⊢
    simp [windows, window, delays_append, delays_shiftWrite, delays, pairUp, this,
      List.replicate_succ]

/-- C7 (counterexample): on the wired driver at 50 percent of a frame of 2000, each digit of
the text 3141 is held lit for 1001 and dark for 1001 microseconds, so the two holds do not
sum to `FRAMEPERIOD`. -/
theorem hold_times_sum_counterexample :
    (DisplayString 2000 glyphs (SetBrightness 2000 wired 50) text3141 0).map holdTimes
        = some [(1001, 1001), (1001, 1001), (1001, 1001), (1001, 1001)]
      ∧ ¬ ∀ tr, DisplayString 2000 glyphs (SetBrightness 2000 wired 50) text3141 0 = some tr →
          ∀ h ∈ holdTimes tr, h.1 + h.2 = 2000 := by
  have h : (DisplayString 2000 glyphs (SetBrightness 2000 wired 50) text3141 0).map holdTimes
      = some [(1001, 1001), (1001, 1001), (1001, 1001), (1001, 1001)] := by
    decide
  refine ⟨h, ?_⟩
  intro hall
  cases htr : DisplayString 2000 glyphs (SetBrightness 2000 wired 50) text3141 0 with
  | none => rw [htr] at h; cases h
  | some tr =>
    rw [htr] at h
    simp only [Option.map_some', Option.some.injEq] at h
    have := hall tr htr (1001, 1001) (by rw [h]; simp)
    exact absurd this (by decide)

/-- C7 (amended): for every brightness set through `SetBrightness` and every digit position,
the two durations `DisplayString` passes to `delayMicroseconds` for that digit are
`brightnessDelay + 1` and `FRAMEPERIOD - brightnessDelay + 1`; they sum to exactly
`FRAMEPERIOD + 2`. -/
theorem hold_times_sum (FRAMEPERIOD : Int) (characterArray : Nat → Nat) (s : SevSeg)
    (percent : Nat) (toDisplay : Nat → Nat) (DecAposColon : Nat)
    (hn : s.numberOfDigits ≤ 4) (hpins : s.DigitPins.length = 4) :
    ∃ tr, DisplayString FRAMEPERIOD characterArray (SetBrightness FRAMEPERIOD s percent)
          toDisplay DecAposColon = some tr
      ∧ holdTimes tr = List.replicate s.numberOfDigits
          ((SetBrightness FRAMEPERIOD s percent).brightnessDelay + 1,
            FRAMEPERIOD - (SetBrightness FRAMEPERIOD s percent).brightnessDelay + 1)
      ∧ ∀ h ∈ holdTimes tr, h.1 + h.2 = FRAMEPERIOD + 2 := by
  have hlen : (SetBrightness FRAMEPERIOD s percent).numberOfDigits
      ≤ (SetBrightness FRAMEPERIOD s percent).DigitPins.length := by
    simp only [SetBrightness]
    omega
  have hH := holdTimes_windows FRAMEPERIOD (SetBrightness FRAMEPERIOD s percent) toDisplay
    ((SetBrightness FRAMEPERIOD s percent).DigitPins.take
      (SetBrightness FRAMEPERIOD s percent).numberOfDigits) 0
  have hl : ((SetBrightness FRAMEPERIOD s percent).DigitPins.take
      (SetBrightness FRAMEPERIOD s percent).numberOfDigits).length = s.numberOfDigits := by
    simp only [SetBrightness, List.length_take]
    omega
  rw [hl] at hH
  refine ⟨_, DisplayString_eq _ _ _ _ _ hlen, hH, ?_⟩
  intro h hh
  rw [hH] at hh
  rw [List.eq_of_mem_replicate hh]
  simp only
  ring

/-- Witness of C7 (amended): the wired driver at 50 percent of a frame of 2000. -/
theorem hold_times_sum_witness :
    (wired.numberOfDigits ≤ 4 ∧ wired.DigitPins.length = 4)
      ∧ ∃ tr, DisplayString 2000 glyphs (SetBrightness 2000 wired 50) text3141 0 = some tr
        ∧ holdTimes tr = List.replicate wired.numberOfDigits
            ((SetBrightness 2000 wired 50).brightnessDelay + 1,
              2000 - (SetBrightness 2000 wired 50).brightnessDelay + 1)
        ∧ ∀ h ∈ holdTimes tr, h.1 + h.2 = 2000 + 2 :=
  ⟨by decide, hold_times_sum 2000 glyphs wired 50 text3141 0 (by decide) (by decide)⟩

/-! ## flipByte -/

/-- C17: for every byte `c`, bit `i` of `flipByte c` is bit `7 - i` of `c` for `i` from 0
to 7, with the accumulator truncated to 8 bits at each shift; hence `flipByte` applied
twice gives `c` back. The result is a byte. -/
theorem flipByte_reverses_bits (c : Nat) (hc : c < 256) :
    (∀ i, i < 8 → (flipByte c).testBit i = c.testBit (7 - i))
      ∧ flipByte (flipByte c) = c ∧ flipByte c < 256 := by
  revert c
  set_option maxRecDepth 100000 in decide

/-- Witness of C17: the byte 0x1D is flipped to 0xB8. -/
theorem flipByte_reverses_bits_witness :
    0x1D < 256
      ∧ ((∀ i, i < 8 → (flipByte 0x1D).testBit i = Nat.testBit 0x1D (7 - i))
        ∧ flipByte (flipByte 0x1D) = 0x1D ∧ flipByte 0x1D < 256) :=
  ⟨by decide, flipByte_reverses_bits 0x1D (by decide)⟩

/-! ## Repeated calls -/

/-- A pin no event of the trace writes keeps its level. -/
theorem run_of_not_written (tr : List Event) (st : Nat → Bool) (p : Nat)
    (h : ∀ v, Event.digitalWrite p v ∉ tr) : run st tr p = st p := by
  induction tr generalizing st with
  | nil => rfl
  | cons e tr ih =>
    rw [run_cons, ih (step st e) (fun v hv => h v (List.mem_cons_of_mem _ hv))]
    cases e with
    | digitalWrite pin val =>
      have hne : p ≠ pin := by
        intro hp
        exact h val (by rw [hp]; exact List.mem_cons_self _ _)
      exact step_write_ne st pin p val hne
    | pinMode pin m => rfl
    | delayMicroseconds us => rfl

/-- Two replays of a trace end in the same levels when the start levels differ only on pins
the trace writes. -/
theorem run_eq_of_written (tr : List Event) (st1 st2 : Nat → Bool)
    (h : ∀ p, st1 p ≠ st2 p → ∃ v, Event.digitalWrite p v ∈ tr) :
    run st1 tr = run st2 tr := by
  induction tr generalizing st1 st2 with
  | nil =>
    funext p
    by_contra hp
    obtain ⟨v, hv⟩ := h p hp
    cases hv
  | cons e tr ih =>
    rw [run_cons, run_cons]
    apply ih
    intro p hp
    cases e with
    | digitalWrite pin val =>
      by_cases hpin : p = pin
      · exfalso
        apply hp
        rw [hpin, step_write_eq, step_write_eq]
      · rw [step_write_ne _ _ _ _ hpin, step_write_ne _ _ _ _ hpin] at hp
        obtain ⟨v, hv⟩ := h p hp
        rcases List.mem_cons.1 hv with hv | hv
        · injection hv with h1 _
          exact absurd h1 hpin
        · exact ⟨v, hv⟩
    | pinMode pin m =>
      obtain ⟨v, hv⟩ := h p hp
      rcases List.mem_cons.1 hv with hv | hv
      · cases hv
      · exact ⟨v, hv⟩
    | delayMicroseconds us =>
      obtain ⟨v, hv⟩ := h p hp
      rcases List.mem_cons.1 hv with hv | hv
      · cases hv
      · exact ⟨v, hv⟩

/-- Replaying a trace twice leaves the levels of replaying it once. -/
theorem run_twice (tr : List Event) (st : Nat → Bool) : run st (tr ++ tr) = run st tr := by
  rw [run_append]
  apply run_eq_of_written
  intro p hp
  by_contra hnot
  exact hp (run_of_not_written tr st p (fun v hv => hnot ⟨v, hv⟩))

theorem windows_congr (FRAMEPERIOD : Int) (s : SevSeg) (text1 text2 : Nat → Nat)
    (ps : List Nat) (d : Nat) (h : ∀ i, d ≤ i → i < d + ps.length → text2 i = text1 i) :
    windows FRAMEPERIOD s text2 ps d = windows FRAMEPERIOD s text1 ps d := by
  induction ps generalizing d with
  | nil => rfl
  | cons p ps ih =>
    have hd : text2 d = text1 d := h d (le_refl d) (by simp)
    have hrest := ih (d + 1) (fun i h1 h2 => h i (by omega) (by simp only [List.length_cons]; omega))
    simp only [windows, hd, hrest]

/-- C11: `DisplayString` returns the driver it was called on, and its trace depends only on
the fields of the driver and the first `numberOfDigits` characters of the text (not on the
table, the mask or the later characters); two consecutive calls with the same arguments
emit the trace of one call twice, `t ++ t`, and the pin levels after the second call are
those after the first. -/
theorem DisplayString_repeatable (FRAMEPERIOD : Int) (characterArray : Nat → Nat) (s : SevSeg)
    (toDisplay : Nat → Nat) (DecAposColon : Nat) (st : Nat → Bool)
    (hn : s.numberOfDigits ≤ 4) (hpins : s.DigitPins.length = 4) :
    ∃ t, DisplayStringCall FRAMEPERIOD characterArray s toDisplay DecAposColon = some (s, t)
      ∧ DisplayStringTwice FRAMEPERIOD characterArray s toDisplay DecAposColon
          = some (s, t ++ t)
      ∧ run st (t ++ t) = run st t
      ∧ ∀ table2 text2 mask2, (∀ i, i < s.numberOfDigits → text2 i = toDisplay i) →
          DisplayString FRAMEPERIOD table2 s text2 mask2 = some t := by
  have hlen : s.numberOfDigits ≤ s.DigitPins.length := by omega
  have h1 := DisplayString_eq FRAMEPERIOD characterArray s toDisplay DecAposColon hlen
  refine ⟨windows FRAMEPERIOD s toDisplay (s.DigitPins.take s.numberOfDigits) 0, ?_, ?_,
    run_twice _ st, ?_⟩
  · simp only [DisplayStringCall, h1, Option.map_some']
  · simp only [DisplayStringTwice, DisplayStringCall, h1, Option.map_some', Option.some_bind]
  · intro table2 text2 mask2 htext
    rw [DisplayString_eq FRAMEPERIOD table2 s text2 mask2 hlen]
    congr 1
    apply windows_congr
    intro i _ hi
    apply htext
    simp only [List.length_take] at hi
    omega

/-- Witness of C11: the wired driver showing 3141 twice. -/
theorem DisplayString_repeatable_witness :
    (wired.numberOfDigits ≤ 4 ∧ wired.DigitPins.length = 4)
      ∧ ∃ t, DisplayStringCall 2000 glyphs wired text3141 0 = some (wired, t)
        ∧ DisplayStringTwice 2000 glyphs wired text3141 0 = some (wired, t ++ t)
        ∧ run digitsHigh (t ++ t) = run digitsHigh t
        ∧ ∀ table2 text2 mask2, (∀ i, i < wired.numberOfDigits → text2 i = text3141 i) →
            DisplayString 2000 table2 wired text2 mask2 = some t :=
  ⟨by decide,
    DisplayString_repeatable 2000 glyphs wired text3141 0 digitsHigh (by decide) (by decide)⟩

/-- C12: for every driver, text and two mask values, `DisplayString` emits the same trace
and leaves the same driver; the mask is not read. -/
theorem DisplayString_ignores_mask (FRAMEPERIOD : Int) (characterArray : Nat → Nat)
    (s : SevSeg) (toDisplay : Nat → Nat) (m1 m2 : Nat) :
    DisplayString FRAMEPERIOD characterArray s toDisplay m1
        = DisplayString FRAMEPERIOD characterArray s toDisplay m2
      ∧ DisplayStringCall FRAMEPERIOD characterArray s toDisplay m1
        = DisplayStringCall FRAMEPERIOD characterArray s toDisplay m2 := by
  constructor
  · simp only [DisplayString]
  · simp only [DisplayStringCall, DisplayString]

/-! ## Holds and the order of the serial pins -/

theorem delays_windows (FRAMEPERIOD : Int) (s : SevSeg) (toDisplay : Nat → Nat)
    (pins : List Nat) (d : Nat) :
    delays (windows FRAMEPERIOD s toDisplay pins d)
      = pins.flatMap fun _ => [s.brightnessDelay + 1, FRAMEPERIOD - s.brightnessDelay + 1] := by
  induction pins generalizing d with
  | nil => rfl
  | cons p pins ih =>
    simp [windows, window, delays_append, delays_shiftWrite, delays, ih (d + 1)]

theorem mem_delays_iff (tr : List Event) (us : Int) :
    us ∈ delays tr ↔ Event.delayMicroseconds us ∈ tr := by
  induction tr with
  | nil => simp [delays]
  | cons e tr ih => cases e <;> simp [delays, ih]

theorem brightnessDelay_bounds (FRAMEPERIOD : Int) (hFP : 0 ≤ FRAMEPERIOD) (s : SevSeg)
    (percent : Nat) :
    0 ≤ (SetBrightness FRAMEPERIOD s percent).brightnessDelay
      ∧ (SetBrightness FRAMEPERIOD s percent).brightnessDelay ≤ FRAMEPERIOD := by
  have key : ∀ p : Nat, p ≤ 100 →
      0 ≤ map p 0 100 0 FRAMEPERIOD ∧ map p 0 100 0 FRAMEPERIOD ≤ FRAMEPERIOD := by
    intro p hp
    rw [map_percent FRAMEPERIOD hFP]
    have hp1 : (p : Int) ≤ 100 := by exact_mod_cast hp
    have hp0 : (0 : Int) ≤ p := Int.ofNat_nonneg p
    constructor
    · exact Int.ediv_nonneg (mul_nonneg hp0 hFP) (by decide)
    · have : (p : Int) * FRAMEPERIOD ≤ FRAMEPERIOD * 100 := by nlinarith
      calc (p : Int) * FRAMEPERIOD / 100 ≤ FRAMEPERIOD * 100 / 100 :=
            Int.ediv_le_ediv (by decide) this
        _ = FRAMEPERIOD := Int.mul_ediv_cancel _ (by decide)
  by_cases hp : percent > 100
  · simpa [SetBrightness, hp] using key 100 (by decide)
  · have hle : percent ≤ 100 := by omega
    simpa [SetBrightness, hp] using key percent hle

/-- C13: for a frame period that is not negative and every percent passed to
`SetBrightness`, `DisplayString` then returns, and every duration it passes to
`delayMicroseconds` is at least 1 and at most `FRAMEPERIOD + 1`: per digit the lit hold is
`brightnessDelay + 1` and the dark hold is `FRAMEPERIOD - brightnessDelay + 1`, and
`delayMicroseconds(0)` is not in the trace. -/
theorem holds_never_zero (FRAMEPERIOD : Int) (characterArray : Nat → Nat) (s : SevSeg)
    (percent : Nat) (toDisplay : Nat → Nat) (DecAposColon : Nat)
    (hFP : 0 ≤ FRAMEPERIOD) (hn : s.numberOfDigits ≤ 4) (hpins : s.DigitPins.length = 4) :
    ∃ tr, DisplayString FRAMEPERIOD characterArray (SetBrightness FRAMEPERIOD s percent)
          toDisplay DecAposColon = some tr
      ∧ holdTimes tr = List.replicate s.numberOfDigits
          ((SetBrightness FRAMEPERIOD s percent).brightnessDelay + 1,
            FRAMEPERIOD - (SetBrightness FRAMEPERIOD s percent).brightnessDelay + 1)
      ∧ (∀ h ∈ holdTimes tr, 1 ≤ h.1 ∧ 1 ≤ h.2)
      ∧ (∀ us, Event.delayMicroseconds us ∈ tr → 1 ≤ us ∧ us ≤ FRAMEPERIOD + 1)
      ∧ Event.delayMicroseconds 0 ∉ tr := by
  obtain ⟨hlo, hhi⟩ := brightnessDelay_bounds FRAMEPERIOD hFP s percent
  have hlen : (SetBrightness FRAMEPERIOD s percent).numberOfDigits
      ≤ (SetBrightness FRAMEPERIOD s percent).DigitPins.length := by
    simp only [SetBrightness]
    omega
  have hH := holdTimes_windows FRAMEPERIOD (SetBrightness FRAMEPERIOD s percent) toDisplay
    ((SetBrightness FRAMEPERIOD s percent).DigitPins.take
      (SetBrightness FRAMEPERIOD s percent).numberOfDigits) 0
  have hl : ((SetBrightness FRAMEPERIOD s percent).DigitPins.take
      (SetBrightness FRAMEPERIOD s percent).numberOfDigits).length = s.numberOfDigits := by
    simp only [SetBrightness, List.length_take]
    omega
  rw [hl] at hH
  have hus : ∀ us, Event.delayMicroseconds us
      ∈ windows FRAMEPERIOD (SetBrightness FRAMEPERIOD s percent) toDisplay
          ((SetBrightness FRAMEPERIOD s percent).DigitPins.take
            (SetBrightness FRAMEPERIOD s percent).numberOfDigits) 0 →
      1 ≤ us ∧ us ≤ FRAMEPERIOD + 1 := by
    intro us hmem
    rw [← mem_delays_iff, delays_windows] at hmem
    simp only [List.mem_flatMap, List.mem_cons, List.mem_singleton, List.not_mem_nil,
      or_false] at hmem
    obtain ⟨_, _, h | h⟩ := hmem <;> rw [h] <;> constructor <;> omega
  refine ⟨_, DisplayString_eq _ _ _ _ _ hlen, hH, ?_, hus, ?_⟩
  · intro h hh
    rw [hH] at hh
    rw [List.eq_of_mem_replicate hh]
    constructor <;> simp only <;> omega
  · intro h0
    have := (hus 0 h0).1
    omega

/-- Witness of C13: the wired driver at 255 percent of a frame of 2000. -/
theorem holds_never_zero_witness :
    ((0 : Int) ≤ 2000 ∧ wired.numberOfDigits ≤ 4 ∧ wired.DigitPins.length = 4)
      ∧ ∃ tr, DisplayString 2000 glyphs (SetBrightness 2000 wired 255) text3141 0 = some tr
        ∧ holdTimes tr = List.replicate wired.numberOfDigits
            ((SetBrightness 2000 wired 255).brightnessDelay + 1,
              2000 - (SetBrightness 2000 wired 255).brightnessDelay + 1)
        ∧ (∀ h ∈ holdTimes tr, 1 ≤ h.1 ∧ 1 ≤ h.2)
        ∧ (∀ us, Event.delayMicroseconds us ∈ tr → 1 ≤ us ∧ us ≤ 2000 + 1)
        ∧ Event.delayMicroseconds 0 ∉ tr :=
  ⟨by decide,
    holds_never_zero 2000 glyphs wired 255 text3141 0 (by decide) (by decide) (by decide)⟩

/-- C14 (counterexample): called with the serial pins 8, 9, 10 in that order, `Begin` makes
pin 8 the latch, pin 9 the data pin and pin 10 the clock: the first of the three is not the
data pin, and the first event of `shiftWrite` is the latch write on pin 8. -/
theorem Begin_serial_order_counterexample :
    (Begin wired COMMON_CATHODE 4 2 3 4 5 8 9 10).map
          (fun r => (r.1.dataPin, r.1.clockPin, r.1.latchPin)) = some (9, 10, 8)
      ∧ (Begin wired COMMON_CATHODE 4 2 3 4 5 8 9 10).map
          (fun r => (shiftWrite r.1 0x80).take 3)
        = some [Event.digitalWrite 8 false, Event.digitalWrite 10 false,
            Event.digitalWrite 9 true]
      ∧ ¬ (Begin wired COMMON_CATHODE 4 2 3 4 5 8 9 10).map
          (fun r => (r.1.dataPin, r.1.clockPin, r.1.latchPin)) = some (8, 9, 10) := by
  refine ⟨by decide, by decide, by decide⟩

/-- C14 (amended): `Begin` takes its three serial-interface pin arguments in the positional
order latch, data, clock: the first of the three (7th argument overall) is the pin
`shiftWrite` writes LOW before and HIGH after `shiftOut`, the second the pin `shiftOut`
drives with the bit values, and the third the pin `shiftOut` pulses as clock. -/
theorem Begin_serial_order (s : SevSeg) (mode_in : Bool)
    (n digit1 digit2 digit3 digit4 arg7 arg8 arg9 : Nat) (b : Nat) (hn : n ≤ 4) :
    ∃ s1 tr, Begin s mode_in n digit1 digit2 digit3 digit4 arg7 arg8 arg9 = some (s1, tr)
      ∧ s1.latchPin = arg7 ∧ s1.dataPin = arg8 ∧ s1.clockPin = arg9
      ∧ shiftOut s1 b
          = ([7, 6, 5, 4, 3, 2, 1, 0].flatMap fun i =>
              [Event.digitalWrite arg9 false, Event.digitalWrite arg8 (b.testBit i),
               Event.digitalWrite arg9 true, Event.digitalWrite arg8 false])
            ++ [Event.digitalWrite arg9 false]
      ∧ shiftWrite s1 b
          = [Event.digitalWrite arg7 LOW] ++ shiftOut s1 b ++ [Event.digitalWrite arg7 HIGH] := by
  refine ⟨_, _, Begin_eq s mode_in n digit1 digit2 digit3 digit4 arg7 arg8 arg9 hn,
    rfl, rfl, rfl, ?_, rfl⟩
  rw [shiftOut_eq]
  rfl

/-- Witness of C14 (amended): the serial pins 8, 9, 10 and the byte 0x80. -/
theorem Begin_serial_order_witness :
    4 ≤ 4
      ∧ ∃ s1 tr, Begin wired COMMON_CATHODE 4 2 3 4 5 8 9 10 = some (s1, tr)
        ∧ s1.latchPin = 8 ∧ s1.dataPin = 9 ∧ s1.clockPin = 10
        ∧ shiftOut s1 0x80
            = ([7, 6, 5, 4, 3, 2, 1, 0].flatMap fun i =>
                [Event.digitalWrite 10 false, Event.digitalWrite 9 (Nat.testBit 0x80 i),
                 Event.digitalWrite 10 true, Event.digitalWrite 9 false])
              ++ [Event.digitalWrite 10 false]
        ∧ shiftWrite s1 0x80
            = [Event.digitalWrite 8 LOW] ++ shiftOut s1 0x80 ++ [Event.digitalWrite 8 HIGH] :=
  ⟨by decide, Begin_serial_order wired COMMON_CATHODE 4 2 3 4 5 8 9 10 0x80 (by decide)⟩

/-! ## Idle lines -/

theorem run_shiftOut (s : SevSeg) (b : Nat) (st : Nat → Bool) (hdc : s.dataPin ≠ s.clockPin) :
    run st (shiftOut s b) s.clockPin = false ∧ run st (shiftOut s b) s.dataPin = false := by
  rw [shiftOut_eq]
  simp [run, step, Function.update, hdc, hdc.symm]

theorem run_shiftOut_latch (s : SevSeg) (b : Nat) (st : Nat → Bool)
    (hld : s.latchPin ≠ s.dataPin) (hlc : s.latchPin ≠ s.clockPin) :
    run st (shiftOut s b) s.latchPin = st s.latchPin := by
  apply run_of_not_written
  intro v hv
  simp only [shiftOut, List.mem_append, List.mem_singleton] at hv
  rcases hv with hv | hv
  · have := pinOf_mem_shiftOutLoop s b 8 _ hv
    simp only [pinOf, Option.some.injEq] at this
    rcases this with h | h
    · exact hld h
    · exact hlc h
  · injection hv with h _
    exact hlc h

theorem idle_shiftWrite (s : SevSeg) (b : Nat) (st : Nat → Bool)
    (hld : s.latchPin ≠ s.dataPin) (hlc : s.latchPin ≠ s.clockPin)
    (hdc : s.dataPin ≠ s.clockPin) : IdleLines s (run st (shiftWrite s b)) := by
  have hout := run_shiftOut s b (step st (Event.digitalWrite s.latchPin LOW)) hdc
  simp only [IdleLines, shiftWrite, run_append, List.singleton_append, run_cons]
  refine ⟨?_, ?_, ?_⟩
  · show step _ (Event.digitalWrite s.latchPin HIGH) s.clockPin = false
    rw [step_write_ne _ _ _ _ hlc.symm]
    exact hout.1
  · show step _ (Event.digitalWrite s.latchPin HIGH) s.dataPin = false
    rw [step_write_ne _ _ _ _ hld.symm]
    exact hout.2
  · show step _ (Event.digitalWrite s.latchPin HIGH) s.latchPin = true
    rw [step_write_eq]
    rfl

/-- Events that touch none of the three serial pins keep the lines at rest. -/
theorem idle_of_untouched (s : SevSeg) (tr : List Event) (st : Nat → Bool)
    (htr : ∀ e ∈ tr, pinOf e ≠ some s.latchPin ∧ pinOf e ≠ some s.dataPin
      ∧ pinOf e ≠ some s.clockPin)
    (hst : IdleLines s st) : IdleLines s (run st tr) := by
  have hkeep : ∀ p, (p = s.latchPin ∨ p = s.dataPin ∨ p = s.clockPin) →
      run st tr p = st p := by
    intro p hp
    apply run_of_not_written
    intro v hv
    have h := htr _ hv
    simp only [pinOf, ne_eq, Option.some.injEq] at h
    rcases hp with hp | hp | hp
    · exact h.1 hp
    · exact h.2.1 hp
    · exact h.2.2 hp
  obtain ⟨h1, h2, h3⟩ := hst
  exact ⟨by rw [hkeep _ (Or.inr (Or.inr rfl)), h1], by rw [hkeep _ (Or.inr (Or.inl rfl)), h2],
    by rw [hkeep _ (Or.inl rfl), h3]⟩

theorem idle_window (FRAMEPERIOD : Int) (s : SevSeg) (pin c : Nat) (st : Nat → Bool)
    (hpin : pin ≠ s.latchPin ∧ pin ≠ s.dataPin ∧ pin ≠ s.clockPin)
    (hld : s.latchPin ≠ s.dataPin) (hlc : s.latchPin ≠ s.clockPin)
    (hdc : s.dataPin ≠ s.clockPin) : IdleLines s (run st (window FRAMEPERIOD s pin c)) := by
  have hsplit : window FRAMEPERIOD s pin c
      = ([Event.digitalWrite pin s.DigitOn] ++ shiftWrite s (complementByte c)
          ++ [Event.delayMicroseconds (s.brightnessDelay + 1)])
        ++ shiftWrite s 0xFF
        ++ [Event.digitalWrite pin s.DigitOff,
            Event.delayMicroseconds (FRAMEPERIOD - s.brightnessDelay + 1)] := by
    simp [window]
  rw [hsplit, run_append, run_append]
  apply idle_of_untouched
  · intro e he
    simp only [List.mem_cons, List.mem_singleton, List.not_mem_nil, or_false] at he
    rcases he with rfl | rfl
    · simp only [pinOf, ne_eq, Option.some.injEq]
      exact hpin
    · simp [pinOf]
  · exact idle_shiftWrite s 0xFF _ hld hlc hdc

theorem idle_windows (FRAMEPERIOD : Int) (s : SevSeg) (toDisplay : Nat → Nat)
    (hld : s.latchPin ≠ s.dataPin) (hlc : s.latchPin ≠ s.clockPin)
    (hdc : s.dataPin ≠ s.clockPin) (ps : List Nat)
    (hps : ∀ p ∈ ps, p ≠ s.latchPin ∧ p ≠ s.dataPin ∧ p ≠ s.clockPin) (d : Nat)
    (st : Nat → Bool) (hst : ps = [] → IdleLines s st) :
    IdleLines s (run st (windows FRAMEPERIOD s toDisplay ps d)) := by
  induction ps generalizing d st with
  | nil => exact hst rfl
  | cons p ps ih =>
    rw [windows, run_append]
    apply ih (fun q hq => hps q (List.mem_cons_of_mem _ hq))
    intro _
    exact idle_window FRAMEPERIOD s p _ st (hps p (List.mem_cons_self _ _)) hld hlc hdc

theorem idle_beginTrace (s1 : SevSeg) (st : Nat → Bool)
    (hld : s1.latchPin ≠ s1.dataPin) (hlc : s1.latchPin ≠ s1.clockPin)
    (hdc : s1.dataPin ≠ s1.clockPin) : IdleLines s1 (run st (beginTrace s1)) := by
  rw [beginTrace, beginSerial, ← List.append_assoc, run_append]
  exact idle_shiftWrite s1 _ _ hld hlc hdc

theorem wellWired_configured (s : SevSeg) (mode_in : Bool)
    (n digit1 digit2 digit3 digit4 latch data clock : Nat) (hn : n ≤ 4)
    (hdistinct : [digit1, digit2, digit3, digit4, latch, data, clock].Nodup) :
    WellWired (configured s mode_in n digit1 digit2 digit3 digit4 latch data clock) := by
  obtain ⟨_, _, _, _, _, _, _, _, _, _, _, _, _, _, _, _, _, _, hld, hlc, hdc⟩ :=
    pairwise_ne_of_nodup _ _ _ _ _ _ _ hdistinct
  refine ⟨hn, rfl, ?_, hld, hlc, hdc⟩
  intro p hp
  exact digit_ne_serial _ _ _ _ _ _ _ hdistinct p (List.mem_of_mem_take hp)

/-- A call on a well wired driver with the lines at rest returns, keeps the wiring and
leaves the lines at rest. -/
theorem call_keeps_idle (FRAMEPERIOD : Int) (characterArray : Nat → Nat) (s : SevSeg)
    (st : Nat → Bool) (c : Call) (hw : WellWired s) (hst : IdleLines s st) :
    ∃ s2 tr, call FRAMEPERIOD characterArray s c = some (s2, tr)
      ∧ WellWired s2 ∧ IdleLines s2 (run st tr) := by
  obtain ⟨hn, hlen, hdig, hld, hlc, hdc⟩ := hw
  cases c with
  | shiftOut b =>
    refine ⟨s, _, rfl, ⟨hn, hlen, hdig, hld, hlc, hdc⟩, ?_⟩
    obtain ⟨h1, h2⟩ := run_shiftOut s b st hdc
    exact ⟨h1, h2, by rw [run_shiftOut_latch s b st hld hlc]; exact hst.2.2⟩
  | shiftWrite b =>
    exact ⟨s, _, rfl, ⟨hn, hlen, hdig, hld, hlc, hdc⟩, idle_shiftWrite s b st hld hlc hdc⟩
  | SetBrightness p =>
    exact ⟨_, _, rfl, ⟨hn, hlen, hdig, hld, hlc, hdc⟩, hst⟩
  | DisplayString text mask =>
    have hle : s.numberOfDigits ≤ s.DigitPins.length := by omega
    refine ⟨s, _, ?_, ⟨hn, hlen, hdig, hld, hlc, hdc⟩,
      idle_windows FRAMEPERIOD s text hld hlc hdc _ hdig 0 st (fun _ => hst)⟩
    simp only [call, DisplayStringCall, DisplayString_eq FRAMEPERIOD characterArray s text mask
      hle, Option.map_some']

theorem session_keeps_idle (FRAMEPERIOD : Int) (characterArray : Nat → Nat)
    (calls : List Call) (s : SevSeg) (st : Nat → Bool) (hw : WellWired s)
    (hst : IdleLines s st) :
    ∃ s2 st2, session FRAMEPERIOD characterArray s st calls = some (s2, st2)
      ∧ WellWired s2 ∧ IdleLines s2 st2 := by
  induction calls generalizing s st with
  | nil => exact ⟨s, st, rfl, hw, hst⟩
  | cons c cs ih =>
    obtain ⟨s2, tr, hc, hw2, hst2⟩ := call_keeps_idle FRAMEPERIOD characterArray s st c hw hst
    obtain ⟨s3, st3, hs, hw3, hst3⟩ := ih s2 (run st tr) hw2 hst2
    refine ⟨s3, st3, ?_, hw3, hst3⟩
    simp only [session, hc, Option.some_bind]
    exact hs

/-- C16: with the digit pins and the latch, data and clock pins pairwise distinct and a
digit count up to 4, `Begin` returns and leaves the clock line low, the data line low and
the latch line high, from any pin levels; after any sequence of later calls of `shiftOut`,
`shiftWrite`, `SetBrightness` and `DisplayString` (any byte, text, mask and brightness)
the three lines are again at these levels. In addition, from any pin levels at all,
`shiftOut` leaves clock and data low, `shiftWrite` leaves clock and data low and the latch
high, and so does `DisplayString` when the digit count is at least 1. -/
theorem idle_lines (FRAMEPERIOD : Int) (characterArray : Nat → Nat) (s : SevSeg)
    (mode_in : Bool) (n digit1 digit2 digit3 digit4 latch data clock : Nat) (hn : n ≤ 4)
    (hdistinct : [digit1, digit2, digit3, digit4, latch, data, clock].Nodup)
    (st : Nat → Bool) :
    ∃ s1 tr, Begin s mode_in n digit1 digit2 digit3 digit4 latch data clock = some (s1, tr)
      ∧ IdleLines s1 (run st tr)
      ∧ (∀ calls, ∃ s2 st2,
          session FRAMEPERIOD characterArray s1 (run st tr) calls = some (s2, st2)
            ∧ IdleLines s2 st2)
      ∧ (∀ st1 b, run st1 (shiftOut s1 b) s1.clockPin = false
          ∧ run st1 (shiftOut s1 b) s1.dataPin = false)
      ∧ (∀ st1 b, IdleLines s1 (run st1 (shiftWrite s1 b)))
      ∧ (∀ st1 percent toDisplay DecAposColon, 1 ≤ n →
          ∃ t, DisplayString FRAMEPERIOD characterArray (SetBrightness FRAMEPERIOD s1 percent)
              toDisplay DecAposColon = some t
            ∧ IdleLines s1 (run st1 t)) := by
  have hw := wellWired_configured s mode_in n digit1 digit2 digit3 digit4 latch data clock hn
    hdistinct
  obtain ⟨hn1, hlen, hdig, hld, hlc, hdc⟩ := hw
  have hidle := idle_beginTrace (configured s mode_in n digit1 digit2 digit3 digit4 latch data
    clock) st hld hlc hdc
  refine ⟨_, _, Begin_eq s mode_in n digit1 digit2 digit3 digit4 latch data clock hn, hidle,
    ?_, ?_, ?_, ?_⟩
  · intro calls
    obtain ⟨s2, st2, hs, _, hst2⟩ := session_keeps_idle FRAMEPERIOD characterArray calls _ _
      ⟨hn1, hlen, hdig, hld, hlc, hdc⟩ hidle
    exact ⟨s2, st2, hs, hst2⟩
  · intro st1 b
    exact run_shiftOut _ b st1 hdc
  · intro st1 b
    exact idle_shiftWrite _ b st1 hld hlc hdc
  · intro st1 percent toDisplay DecAposColon h1
    refine ⟨_, DisplayString_eq FRAMEPERIOD characterArray _ toDisplay DecAposColon
      (by simp only [SetBrightness, configured, List.length_cons, List.length_nil]; omega), ?_⟩
    apply idle_windows FRAMEPERIOD
      (SetBrightness FRAMEPERIOD
        (configured s mode_in n digit1 digit2 digit3 digit4 latch data clock) percent)
      toDisplay hld hlc hdc _ hdig 0 st1
    intro hnil
    exfalso
    have hl := congrArg List.length hnil
    simp only [SetBrightness, configured, List.length_take, List.length_cons,
      List.length_nil] at hl
    omega

/-- Witness of C16: common anode, two digits in use. -/
theorem idle_lines_witness :
    (2 ≤ 4 ∧ [2, 3, 4, 5, 8, 9, 10].Nodup)
      ∧ ∃ s1 tr, Begin wired COMMON_ANODE 2 2 3 4 5 8 9 10 = some (s1, tr)
        ∧ IdleLines s1 (run allLow tr)
        ∧ (∀ calls, ∃ s2 st2,
            session 2000 glyphs s1 (run allLow tr) calls = some (s2, st2) ∧ IdleLines s2 st2)
        ∧ (∀ st1 b, run st1 (shiftOut s1 b) s1.clockPin = false
            ∧ run st1 (shiftOut s1 b) s1.dataPin = false)
        ∧ (∀ st1 b, IdleLines s1 (run st1 (shiftWrite s1 b)))
        ∧ (∀ st1 percent toDisplay DecAposColon, 1 ≤ 2 →
            ∃ t, DisplayString 2000 glyphs (SetBrightness 2000 s1 percent)
                toDisplay DecAposColon = some t
              ∧ IdleLines s1 (run st1 t)) :=
  ⟨by decide,
    idle_lines 2000 glyphs wired COMMON_ANODE 2 2 3 4 5 8 9 10 (by decide) (by decide) allLow⟩

/-! ## Blanking between digits -/

theorem latchedBytes_append_exists (s : SevSeg) (a b : List Event) (st : Nat → Bool)
    (reg : Nat) :
    ∃ reg1, latchedBytes s st reg (a ++ b)
      = latchedBytes s st reg a ++ latchedBytes s (run st a) reg1 b := by
  induction a generalizing st reg with
  | nil => exact ⟨reg, rfl⟩
  | cons e a ih =>
    obtain ⟨reg1, h⟩ := ih (step st e)
      (if e = Event.digitalWrite s.clockPin true ∧ st s.clockPin = false then
        (2 * reg + (st s.dataPin).toNat) % 256
      else reg)
    refine ⟨reg1, ?_⟩
    rw [List.cons_append, latchedBytes_cons, latchedBytes_cons, h, run_cons,
      List.append_assoc]

theorem latchedBytes_snoc_shiftWrite (s : SevSeg) (b : Nat) (hb : b < 256)
    (hld : s.latchPin ≠ s.dataPin) (hlc : s.latchPin ≠ s.clockPin)
    (hdc : s.dataPin ≠ s.clockPin) (pre : List Event) (st : Nat → Bool) (reg : Nat) :
    latchedBytes s st reg (pre ++ shiftWrite s b) = latchedBytes s st reg pre ++ [b] := by
  obtain ⟨reg1, h⟩ := latchedBytes_append_exists s pre (shiftWrite s b) st reg
  rw [h, latchedBytes_shiftWrite s b hb hld hlc hdc]

theorem latchedBytes_snoc_quiet (s : SevSeg) (pre a : List Event)
    (ha : ∀ e ∈ a, e ≠ Event.digitalWrite s.latchPin true
      ∧ e ≠ Event.digitalWrite s.clockPin true)
    (st : Nat → Bool) (reg : Nat) :
    latchedBytes s st reg (pre ++ a) = latchedBytes s st reg pre := by
  obtain ⟨reg1, h⟩ := latchedBytes_append_exists s pre a st reg
  have hq := latchedBytes_append_of_quiet s a [] ha (run st pre) reg1
  rw [List.append_nil, latchedBytes_nil] at hq
  rw [h, hq, List.append_nil]

/-- A write to a pin that is neither the latch nor the clock is quiet. -/
theorem quiet_of_pin (s : SevSeg) (pin : Nat) (val : Bool) (us : Int)
    (hl : pin ≠ s.latchPin) (hc : pin ≠ s.clockPin) :
    ∀ e ∈ [Event.digitalWrite pin val, Event.delayMicroseconds us],
      e ≠ Event.digitalWrite s.latchPin true ∧ e ≠ Event.digitalWrite s.clockPin true := by
  intro e he
  simp only [List.mem_cons, List.mem_singleton, List.not_mem_nil, or_false] at he
  rcases he with rfl | rfl
  · constructor <;> intro h <;> injection h with h1 _
    · exact hl h1
    · exact hc h1
  · constructor <;> intro h <;> cases h

theorem quiet_singleton (s : SevSeg) (pin : Nat) (val : Bool)
    (hl : pin ≠ s.latchPin) (hc : pin ≠ s.clockPin) :
    ∀ e ∈ [Event.digitalWrite pin val],
      e ≠ Event.digitalWrite s.latchPin true ∧ e ≠ Event.digitalWrite s.clockPin true := by
  intro e he
  simp only [List.mem_singleton] at he
  rw [he]
  constructor <;> intro h <;> injection h with h1 _
  · exact hl h1
  · exact hc h1

theorem quiet_delay (s : SevSeg) (us : Int) :
    ∀ e ∈ [Event.delayMicroseconds us],
      e ≠ Event.digitalWrite s.latchPin true ∧ e ≠ Event.digitalWrite s.clockPin true := by
  intro e he
  simp only [List.mem_singleton] at he
  rw [he]
  constructor <;> intro h <;> cases h

theorem complementByte_lt (c : Nat) : complementByte c < 256 := by
  unfold complementByte
  omega

/-- The bytes latched up to the second `shiftWrite` of a window. -/
theorem latchedBytes_snoc_window_middle (s : SevSeg) (pin c : Nat)
    (hl : pin ≠ s.latchPin) (hc : pin ≠ s.clockPin)
    (hld : s.latchPin ≠ s.dataPin) (hlc : s.latchPin ≠ s.clockPin)
    (hdc : s.dataPin ≠ s.clockPin) (pre : List Event) (st : Nat → Bool) (reg : Nat) :
    latchedBytes s st reg
        (pre ++ [Event.digitalWrite pin s.DigitOn]
          ++ (shiftWrite s (complementByte c)
              ++ [Event.delayMicroseconds (s.brightnessDelay + 1)] ++ shiftWrite s 0xFF))
      = latchedBytes s st reg pre ++ [complementByte c, 0xFF] := by
  rw [← List.append_assoc, ← List.append_assoc,
    latchedBytes_snoc_shiftWrite s 0xFF (by decide) hld hlc hdc,
    latchedBytes_snoc_quiet s _ _ (quiet_delay s _),
    latchedBytes_snoc_shiftWrite s _ (complementByte_lt c) hld hlc hdc,
    latchedBytes_snoc_quiet s _ _ (quiet_singleton s pin _ hl hc)]
  simp

theorem latchedBytes_snoc_window (FRAMEPERIOD : Int) (s : SevSeg) (pin c : Nat)
    (hl : pin ≠ s.latchPin) (hc : pin ≠ s.clockPin)
    (hld : s.latchPin ≠ s.dataPin) (hlc : s.latchPin ≠ s.clockPin)
    (hdc : s.dataPin ≠ s.clockPin) (pre : List Event) (st : Nat → Bool) (reg : Nat) :
    latchedBytes s st reg (pre ++ window FRAMEPERIOD s pin c)
      = latchedBytes s st reg pre ++ [complementByte c, 0xFF] := by
  have hsplit : pre ++ window FRAMEPERIOD s pin c
      = (pre ++ [Event.digitalWrite pin s.DigitOn]
          ++ (shiftWrite s (complementByte c)
              ++ [Event.delayMicroseconds (s.brightnessDelay + 1)] ++ shiftWrite s 0xFF))
        ++ [Event.digitalWrite pin s.DigitOff,
            Event.delayMicroseconds (FRAMEPERIOD - s.brightnessDelay + 1)] := by
    simp [window]
  rw [hsplit, latchedBytes_snoc_quiet s _ _ (quiet_of_pin s pin _ _ hl hc),
    latchedBytes_snoc_window_middle s pin c hl hc hld hlc hdc]

theorem latchedBytes_snoc_windows (FRAMEPERIOD : Int) (s : SevSeg) (toDisplay : Nat → Nat)
    (hld : s.latchPin ≠ s.dataPin) (hlc : s.latchPin ≠ s.clockPin)
    (hdc : s.dataPin ≠ s.clockPin) (ps : List Nat)
    (hps : ∀ p ∈ ps, p ≠ s.latchPin ∧ p ≠ s.dataPin ∧ p ≠ s.clockPin) (d : Nat)
    (pre : List Event) (st : Nat → Bool) (reg : Nat) :
    latchedBytes s st reg (pre ++ windows FRAMEPERIOD s toDisplay ps d)
      = latchedBytes s st reg pre
        ++ (ps.enumFrom d).flatMap fun ip => [complementByte (toDisplay ip.1), 0xFF] := by
  induction ps generalizing d pre with
  | nil => simp [windows]
  | cons p ps ih =>
    obtain ⟨hl, _, hc⟩ := hps p (List.mem_cons_self _ _)
    rw [windows, ← List.append_assoc, ih (fun q hq => hps q (List.mem_cons_of_mem _ hq)),
      latchedBytes_snoc_window FRAMEPERIOD s p _ hl hc hld hlc hdc]
    simp

theorem digitWriteLog_cons (s : SevSeg) (st : Nat → Bool) (reg : Nat)
    (pre : List Event) (e : Event) (es : List Event) :
    digitWriteLog s st reg pre (e :: es)
      = digitWriteEntry s (latchedBytes s st reg pre).getLast? e
        ++ digitWriteLog s st reg (pre ++ [e]) es := rfl

theorem digitWriteLog_append (s : SevSeg) (st : Nat → Bool) (reg : Nat)
    (pre a b : List Event) :
    digitWriteLog s st reg pre (a ++ b)
      = digitWriteLog s st reg pre a ++ digitWriteLog s st reg (pre ++ a) b := by
  induction a generalizing pre with
  | nil => simp [digitWriteLog]
  | cons e a ih =>
    rw [List.cons_append, digitWriteLog_cons, digitWriteLog_cons, ih, List.append_assoc,
      List.append_assoc, List.singleton_append]

theorem digitWriteLog_of_untouched (s : SevSeg) (st : Nat → Bool) (reg : Nat)
    (pre a : List Event)
    (ha : ∀ e ∈ a, ∀ q ∈ s.DigitPins.take s.numberOfDigits, pinOf e ≠ some q) :
    digitWriteLog s st reg pre a = [] := by
  induction a generalizing pre with
  | nil => rfl
  | cons e a ih =>
    have he := ha e (List.mem_cons_self _ _)
    rw [digitWriteLog_cons, ih _ (fun e1 h1 => ha e1 (List.mem_cons_of_mem _ h1)),
      List.append_nil]
    cases e with
    | digitalWrite pin val =>
      have hpin : pin ∉ s.DigitPins.take s.numberOfDigits := fun h => he pin h rfl
      simp only [digitWriteEntry, hpin, if_false]
    | pinMode pin m => rfl
    | delayMicroseconds us => rfl

/-- The digit-pin writes of one window: the digit is switched on over the byte that was on
the outputs before, and switched off over the blank byte. -/
theorem digitWriteLog_window (FRAMEPERIOD : Int) (s : SevSeg) (pin c : Nat)
    (hserial : ∀ p ∈ s.DigitPins.take s.numberOfDigits,
      p ≠ s.latchPin ∧ p ≠ s.dataPin ∧ p ≠ s.clockPin)
    (hpin : pin ∈ s.DigitPins.take s.numberOfDigits)
    (hld : s.latchPin ≠ s.dataPin) (hlc : s.latchPin ≠ s.clockPin)
    (hdc : s.dataPin ≠ s.clockPin) (pre : List Event) (st : Nat → Bool) (reg : Nat) :
    digitWriteLog s st reg pre (window FRAMEPERIOD s pin c)
      = [(pin, s.DigitOn, (latchedBytes s st reg pre).getLast?),
          (pin, s.DigitOff, some 0xFF)] := by
  obtain ⟨hl, _, hc⟩ := hserial pin hpin
  have hsplit : window FRAMEPERIOD s pin c
      = [Event.digitalWrite pin s.DigitOn]
        ++ ((shiftWrite s (complementByte c)
              ++ [Event.delayMicroseconds (s.brightnessDelay + 1)] ++ shiftWrite s 0xFF)
          ++ [Event.digitalWrite pin s.DigitOff,
              Event.delayMicroseconds (FRAMEPERIOD - s.brightnessDelay + 1)]) := by
    simp [window]
  rw [hsplit, digitWriteLog_append, digitWriteLog_append,
    digitWriteLog_of_untouched s st reg _ _
      (window_middle_untouched s _ (complementByte c) 0xFF (s.brightnessDelay + 1) hserial)]
  simp only [digitWriteLog, digitWriteEntry, hpin, if_true, List.append_nil, List.nil_append,
    List.singleton_append]
  rw [latchedBytes_snoc_window_middle s pin c hl hc hld hlc hdc]
  simp

theorem digitWriteLog_windows (FRAMEPERIOD : Int) (s : SevSeg) (toDisplay : Nat → Nat)
    (hserial : ∀ p ∈ s.DigitPins.take s.numberOfDigits,
      p ≠ s.latchPin ∧ p ≠ s.dataPin ∧ p ≠ s.clockPin)
    (hld : s.latchPin ≠ s.dataPin) (hlc : s.latchPin ≠ s.clockPin)
    (hdc : s.dataPin ≠ s.clockPin) (ps : List Nat)
    (hps : ∀ p ∈ ps, p ∈ s.DigitPins.take s.numberOfDigits) (d : Nat)
    (pre : List Event) (st : Nat → Bool) (reg : Nat)
    (hpre : (latchedBytes s st reg pre).getLast? = some 0xFF) :
    digitWriteLog s st reg pre (windows FRAMEPERIOD s toDisplay ps d)
      = ps.flatMap fun q => [(q, s.DigitOn, some 0xFF), (q, s.DigitOff, some 0xFF)] := by
  induction ps generalizing d pre with
  | nil => rfl
  | cons p ps ih =>
    have hp := hps p (List.mem_cons_self _ _)
    obtain ⟨hl, _, hc⟩ := hserial p hp
    rw [windows, digitWriteLog_append,
      digitWriteLog_window FRAMEPERIOD s p _ hserial hp hld hlc hdc, hpre,
      ih (fun q hq => hps q (List.mem_cons_of_mem _ hq))]
    · rfl
    · rw [latchedBytes_snoc_window FRAMEPERIOD s p _ hl hc hld hlc hdc]
      simp

theorem windows_eq_flatMap (FRAMEPERIOD : Int) (s : SevSeg) (toDisplay : Nat → Nat)
    (ps : List Nat) (d : Nat) :
    windows FRAMEPERIOD s toDisplay ps d
      = (ps.enumFrom d).flatMap fun ip =>
          [Event.digitalWrite ip.2 s.DigitOn]
            ++ shiftWrite s (complementByte (toDisplay ip.1))
            ++ [Event.delayMicroseconds (s.brightnessDelay + 1)]
            ++ shiftWrite s 0xFF
            ++ [Event.digitalWrite ip.2 s.DigitOff]
            ++ [Event.delayMicroseconds (FRAMEPERIOD - s.brightnessDelay + 1)] := by
  induction ps generalizing d with
  | nil => rfl
  | cons p ps ih =>
    rw [windows, ih (d + 1), List.enumFrom_cons, List.flatMap_cons]
    rfl

/-- C15: on a driver with a digit count up to 4 whose digit pins in use are distinct from
the latch, data and clock pins, themselves pairwise distinct, `DisplayString` returns and
(1) its trace is,
for each position `i` from 0 in order, the write of the digit-on level to digit pin `i`,
the events of `shiftWrite` of the byte for the character at `i` (the complement of its
code), the lit hold, the events of `shiftWrite(0xFF)`, the write of the digit-off level to
digit pin `i`, and the dark hold; (2) replayed from any pin levels and register content,
the bytes moved to the outputs of the shift register are, per position, the character byte
and then 0xFF; (3) every digit pin is switched off with 0xFF on the outputs, and every digit
pin after the first is switched on with 0xFF on the outputs (the first with no byte latched
yet in this call). -/
theorem DisplayString_blanks_between_digits (FRAMEPERIOD : Int)
    (characterArray : Nat → Nat) (s : SevSeg) (toDisplay : Nat → Nat) (DecAposColon : Nat)
    (st : Nat → Bool) (reg : Nat)
    (hn : s.numberOfDigits ≤ 4) (hpins : s.DigitPins.length = 4)
    (hserial : ∀ p ∈ s.DigitPins.take s.numberOfDigits,
      p ≠ s.latchPin ∧ p ≠ s.dataPin ∧ p ≠ s.clockPin)
    (hld : s.latchPin ≠ s.dataPin) (hlc : s.latchPin ≠ s.clockPin)
    (hdc : s.dataPin ≠ s.clockPin) :
    ∃ tr, DisplayString FRAMEPERIOD characterArray s toDisplay DecAposColon = some tr
      ∧ tr = ((s.DigitPins.take s.numberOfDigits).enum.flatMap fun ip =>
          [Event.digitalWrite ip.2 s.DigitOn]
            ++ shiftWrite s (complementByte (toDisplay ip.1))
            ++ [Event.delayMicroseconds (s.brightnessDelay + 1)]
            ++ shiftWrite s 0xFF
            ++ [Event.digitalWrite ip.2 s.DigitOff]
            ++ [Event.delayMicroseconds (FRAMEPERIOD - s.brightnessDelay + 1)])
      ∧ latchedBytes s st reg tr
          = ((s.DigitPins.take s.numberOfDigits).enum.flatMap fun ip =>
              [complementByte (toDisplay ip.1), 0xFF])
      ∧ digitWriteLog s st reg [] tr
          = (match s.DigitPins.take s.numberOfDigits with
            | [] => []
            | p :: ps =>
              (p, s.DigitOn, none) :: (p, s.DigitOff, some 0xFF)
                :: ps.flatMap fun q =>
                    [(q, s.DigitOn, some 0xFF), (q, s.DigitOff, some 0xFF)]) := by
  have hlen : s.numberOfDigits ≤ s.DigitPins.length := by omega
  refine ⟨_, DisplayString_eq FRAMEPERIOD characterArray s toDisplay DecAposColon hlen,
    windows_eq_flatMap FRAMEPERIOD s toDisplay _ 0, ?_, ?_⟩
  · have h := latchedBytes_snoc_windows FRAMEPERIOD s toDisplay hld hlc hdc
      (s.DigitPins.take s.numberOfDigits) hserial 0 [] st reg
    simpa [latchedBytes_nil, List.enum] using h
  · generalize hL : s.DigitPins.take s.numberOfDigits = L
    cases L with
    | nil => rfl
    | cons p ps =>
      have hp : p ∈ s.DigitPins.take s.numberOfDigits := by rw [hL]; exact List.mem_cons_self _ _
      obtain ⟨hl, _, hc⟩ := hserial p hp
      have hps : ∀ q ∈ ps, q ∈ s.DigitPins.take s.numberOfDigits := by
        intro q hq
        rw [hL]
        exact List.mem_cons_of_mem _ hq
      rw [windows, digitWriteLog_append,
        digitWriteLog_window FRAMEPERIOD s p _ hserial hp hld hlc hdc,
        digitWriteLog_windows FRAMEPERIOD s toDisplay hserial hld hlc hdc ps hps]
      · rfl
      · rw [List.nil_append]
        have h := latchedBytes_snoc_window FRAMEPERIOD s p (toDisplay 0) hl hc hld hlc hdc []
          st reg
        rw [List.nil_append] at h
        rw [h]
        simp [latchedBytes_nil]

/-- Witness of C15: the wired driver showing 3141. -/
theorem DisplayString_blanks_between_digits_witness :
    (wired.numberOfDigits ≤ 4 ∧ wired.DigitPins.length = 4
        ∧ (∀ p ∈ wired.DigitPins.take wired.numberOfDigits,
            p ≠ wired.latchPin ∧ p ≠ wired.dataPin ∧ p ≠ wired.clockPin)
        ∧ wired.latchPin ≠ wired.dataPin ∧ wired.latchPin ≠ wired.clockPin
        ∧ wired.dataPin ≠ wired.clockPin)
      ∧ ∃ tr, DisplayString 2000 glyphs wired text3141 0 = some tr
        ∧ tr = ((wired.DigitPins.take wired.numberOfDigits).enum.flatMap fun ip =>
            [Event.digitalWrite ip.2 wired.DigitOn]
              ++ shiftWrite wired (complementByte (text3141 ip.1))
              ++ [Event.delayMicroseconds (wired.brightnessDelay + 1)]
              ++ shiftWrite wired 0xFF
              ++ [Event.digitalWrite ip.2 wired.DigitOff]
              ++ [Event.delayMicroseconds (2000 - wired.brightnessDelay + 1)])
        ∧ latchedBytes wired digitsHigh 0 tr
            = ((wired.DigitPins.take wired.numberOfDigits).enum.flatMap fun ip =>
                [complementByte (text3141 ip.1), 0xFF])
        ∧ digitWriteLog wired digitsHigh 0 [] tr
            = (match wired.DigitPins.take wired.numberOfDigits with
              | [] => []
              | p :: ps =>
                (p, wired.DigitOn, none) :: (p, wired.DigitOff, some 0xFF)
                  :: ps.flatMap fun q =>
                      [(q, wired.DigitOn, some 0xFF), (q, wired.DigitOff, some 0xFF)]) :=
  ⟨by decide,
    DisplayString_blanks_between_digits 2000 glyphs wired text3141 0 digitsHigh 0
      (by decide) (by decide) (by decide) (by decide) (by decide) (by decide)⟩

end SevSeg
